import Mathlib

/-!
Verification of the SVG path-interpolation and frame-synchronization engine
(`generate_inbetweens.py`, `combine_animations.py`, `create_animated_svg.py`).

Path strings are modelled as `List Char`; Python floats are modelled as exact
rationals `ℚ`.  Scanning functions that, in the source, advance an index over
the string are modelled with an explicit fuel argument (always called with
`fuel = length of the input`) so that every definition is structurally
recursive and kernel-computable.
-/

namespace SkullAnim

/-- Characters that continue a number token in `rebuild_path`
(`original_d[j].isdigit() or original_d[j] == '.'`). -/
def isDigitDot (c : Char) : Bool := c.isDigit || c = '.'

/-- Characters that start a number token in `rebuild_path`
(`char == '-' or char == '.' or char.isdigit()`). -/
def isNumStart (c : Char) : Bool := c = '-' || c = '.' || c.isDigit

/-- The SVG path command alphabet of `get_path_commands`
(the regex character class `[MmLlHhVvCcSsQqTtAaZz]`). -/
def cmdAlphabet : List Char := "MmLlHhVvCcSsQqTtAaZz".data

/-- `get_path_commands(d)`: `re.findall(r'[MmLlHhVvCcSsQqTtAaZz]', d)`,
i.e. the subsequence of command letters of `d`. -/
def get_path_commands (d : List Char) : List Char :=
  d.filter (fun c => cmdAlphabet.contains c)

/-- Numeric value of a list of decimal digit characters (most significant
first), as read by Python's `float` on the integer part of a literal. -/
def natFromDigits (ds : List Char) : ℕ :=
  ds.foldl (fun a c => 10 * a + (c.toNat - 48)) 0

/-- One step of the regex `-?\d*\.?\d+` after the optional sign: greedy
digits, optional dot, then at least one digit, with the backtracking
Python's `re` engine performs.  Returns the matched token and the rest. -/
def numBody (cs : List Char) : Option (List Char × List Char) :=
  let ds := cs.takeWhile Char.isDigit
  match cs.dropWhile Char.isDigit with
  | c :: r2 =>
    if c = '.' then
      let ds2 := r2.takeWhile Char.isDigit
      if ds2 ≠ [] then some (ds ++ '.' :: ds2, r2.dropWhile Char.isDigit)
      else if ds ≠ [] then some (ds, c :: r2) else none
    else if ds ≠ [] then some (ds, c :: r2) else none
  | [] => if ds ≠ [] then some (ds, []) else none

/-- A single attempted match of `-?\d*\.?\d+` at the head of `cs`. -/
def matchNum (cs : List Char) : Option (List Char × List Char) :=
  match cs with
  | c :: rest =>
    if c = '-' then
      match numBody rest with
      | some (t, r) => some ('-' :: t, r)
      | none => none
    else numBody cs
  | [] => none

/-- `re.findall(r'-?\d*\.?\d+', d)`: leftmost non-overlapping matches,
scanning left to right (fueled; fuel is the remaining length). -/
def findNumsAux : ℕ → List Char → List (List Char)
  | 0, _ => []
  | _, [] => []
  | fuel + 1, c :: rest =>
    match matchNum (c :: rest) with
    | some (t, r) => t :: findNumsAux fuel r
    | none => findNumsAux fuel rest

def findNums (d : List Char) : List (List Char) := findNumsAux d.length d

/-- Numeric value of an unsigned number literal (integer part, optional
`'.'` and fractional digits), as Python's `float` reads it. -/
def bodyVal (b : List Char) : ℚ :=
  let ds := b.takeWhile Char.isDigit
  match b.dropWhile Char.isDigit with
  | c :: r2 =>
    if c = '.' then
      let ds2 := r2.takeWhile Char.isDigit
      (natFromDigits ds : ℚ) + (natFromDigits ds2 : ℚ) / (10 : ℚ) ^ ds2.length
    else (natFromDigits ds : ℚ)
  | [] => (natFromDigits ds : ℚ)

/-- Python `float` on a token matched by `-?\d*\.?\d+`. -/
def tokVal (t : List Char) : ℚ :=
  match t with
  | c :: r => if c = '-' then -(bodyVal r) else bodyVal t
  | [] => 0

/-- `parse_path_numbers(d)`: all numbers matched in `d`, as rationals. -/
def parse_path_numbers (d : List Char) : List ℚ := (findNums d).map tokVal

/-- `interpolate_numbers(nums1, nums2, t)`. -/
def interpolate_numbers (nums1 nums2 : List ℚ) (t : ℚ) : List ℚ :=
  if nums1.length ≠ nums2.length then (if t < 1/2 then nums1 else nums2)
  else nums1.zipWith (fun n1 n2 => n1 + (n2 - n1) * t) nums2

/-- Decimal digit characters of `n` (`str(n)` for a natural number),
fueled structural version. -/
def natCharsAux : ℕ → ℕ → List Char
  | 0, _ => []
  | fuel + 1, n =>
    if n = 0 then [] else natCharsAux fuel (n / 10) ++ [Nat.digitChar (n % 10)]

def natChars (n : ℕ) : List Char := if n = 0 then ['0'] else natCharsAux n n

/-- `str(int(num))` for an integer value. -/
def intChars (k : ℤ) : List Char :=
  if k < 0 then '-' :: natChars k.natAbs else natChars k.natAbs

/-- Round half to even (the rounding Python's float formatting applies to
the exact value being printed). -/
def rhe (q : ℚ) : ℤ :=
  if q - ⌊q⌋ < 1/2 then ⌊q⌋
  else if 1/2 < q - ⌊q⌋ then ⌊q⌋ + 1
  else if ⌊q⌋ % 2 = 0 then ⌊q⌋ else ⌊q⌋ + 1

/-- The number formatting of `rebuild_path`:
`str(int(num))` when `num == int(num)`, else `f'{num:.1f}'`. -/
def fmt (v : ℚ) : List Char :=
  if v.den = 1 then intChars v.num
  else
    (if v < 0 then ['-'] else []) ++
      natChars ((rhe (10 * v)).natAbs / 10) ++
      '.' :: [Nat.digitChar ((rhe (10 * v)).natAbs % 10)]

/-- The numeric value actually written by `fmt` (the identity on
whole-valued numbers, otherwise rounding to one decimal place). -/
def fmtVal (v : ℚ) : ℚ :=
  if v.den = 1 then v else (rhe (10 * v) : ℚ) / 10

/-- `rebuild_path(original_d, new_numbers)` (fueled): command letters and
other separators are copied, each number-shaped character run is replaced
by the next formatted number while any remain. -/
def rebuildPathAux : ℕ → List Char → List ℚ → List Char
  | 0, _, _ => []
  | _, [], _ => []
  | fuel + 1, c :: rest, nums =>
    if c.isAlpha then c :: rebuildPathAux fuel rest nums
    else if isNumStart c then
      match nums with
      | [] => rebuildPathAux fuel (rest.dropWhile isDigitDot) []
      | v :: vs => fmt v ++ rebuildPathAux fuel (rest.dropWhile isDigitDot) vs
    else c :: rebuildPathAux fuel rest nums

def rebuild_path (d : List Char) (nums : List ℚ) : List Char :=
  rebuildPathAux d.length d nums

/-- Number of number-shaped character runs `rebuild_path` consumes
(the number of times its scanner enters the number branch). -/
def scanCountAux : ℕ → List Char → ℕ
  | 0, _ => 0
  | _, [] => 0
  | fuel + 1, c :: rest =>
    if c.isAlpha then scanCountAux fuel rest
    else if isNumStart c then scanCountAux fuel (rest.dropWhile isDigitDot) + 1
    else scanCountAux fuel rest

def scanCount (d : List Char) : ℕ := scanCountAux d.length d

/-- `create_inbetween(path1, path2, t)`. -/
def create_inbetween (path1 path2 : List Char) (t : ℚ) : List Char :=
  let nums1 := parse_path_numbers path1
  let nums2 := parse_path_numbers path2
  let cmds1 := get_path_commands path1
  let cmds2 := get_path_commands path2
  if cmds1 = cmds2 ∧ nums1.length = nums2.length then
    rebuild_path path1 (interpolate_numbers nums1 nums2 t)
  else if t < 1/2 then path1 else path2

/-- Structural compatibility: identical command skeletons and equal
flattened operand counts (the sole test `create_inbetween` performs). -/
def compatible (p1 p2 : List Char) : Prop :=
  get_path_commands p1 = get_path_commands p2 ∧
    (parse_path_numbers p1).length = (parse_path_numbers p2).length

instance (p1 p2 : List Char) : Decidable (compatible p1 p2) := by
  unfold compatible; infer_instance

/-- Well-formedness of the number-shaped runs of `d` (fueled scan in
lockstep with `rebuild_path`): each run contains at most one `'.'` and no
interior `'-'` (the character after the run is not a number-start
character); with `strong = true` additionally at most one digit follows
the `'.'` of the run. -/
def runsOKAux (strong : Bool) : ℕ → List Char → Bool
  | 0, l => l.isEmpty
  | _, [] => true
  | fuel + 1, c :: rest =>
    if isNumStart c then
      let tk := c :: rest.takeWhile isDigitDot
      let rest1 := rest.dropWhile isDigitDot
      (tk.count '.' ≤ 1 : Bool) &&
        (!strong || ((tk.dropWhile (fun x => x ≠ '.')).length ≤ 2 : Bool)) &&
        (match rest1 with | [] => true | x :: _ => !isNumStart x) &&
        runsOKAux strong fuel rest1
    else runsOKAux strong fuel rest

/-- The tokenization precondition: every maximal numeric run of `d` has at
most one `'.'` and no interior `'-'`. -/
def runsOK (d : List Char) : Bool := runsOKAux false d.length d

/-- `runsOK` strengthened: additionally every numeric run has at most one
digit after its `'.'` (all parsed operands are multiples of 1/10). -/
def runsOKStrong (d : List Char) : Bool := runsOKAux true d.length d

/-- A rational that is a whole multiple of 1/10 (survives the one-decimal
formatting of `rebuild_path` unchanged). -/
def Tenth (v : ℚ) : Prop := (10 * v).den = 1

instance (v : ℚ) : Decidable (Tenth v) := by unfold Tenth; infer_instance

/-! ### Timeline synchronization (`combine_animations.py`) -/

/-- The local `lcm` of `create_combined_animation`:
`abs(a * b) // math.gcd(a, b)` (lengths are naturals, so `abs` is the
identity). -/
def lcmPy (a b : ℕ) : ℕ := a * b / Nat.gcd a b

/-- The per-frame indexing of `create_combined_animation`:
frame `i` of the combined timeline shows skull frame `i % len(skull_frames)`
and flame frame `i % len(flame_frames)`. -/
def combinedIndices (nSkull nFlame : ℕ) : List (ℕ × ℕ) :=
  (List.range (lcmPy nSkull nFlame)).map (fun i => (i % nSkull, i % nFlame))

/-! ### Frame loading and compositing (`combine_animations.py`) -/

/-- A pixel: (r, g, b, a). -/
def Pixel : Type := ℕ × ℕ × ℕ × ℕ

/-- A raster image as rows of pixels (the external rasterizer's output). -/
def Image : Type := List (List Pixel)

def alphaOf (p : Pixel) : ℕ := p.2.2.2

/-- `make_pure_black(img)`: every pixel with nonzero alpha becomes pure
black, keeping its alpha. -/
def make_pure_black (img : Image) : Image :=
  img.map (fun row => row.map (fun p =>
    if 0 < alphaOf p then ((0, 0, 0, alphaOf p) : Pixel) else p))

/-- Coordinates of the pixels with nonzero alpha. -/
def contentPoints (img : Image) : List (ℕ × ℕ) :=
  (img.enum.map (fun ri =>
    (ri.2.enum.filterMap (fun pj =>
      if 0 < alphaOf pj.2 then some (pj.1, ri.1) else none)))).flatten

/-- `get_content_bounds(img)`: the bounding box of the nonzero-alpha
content, or `None` for a fully transparent image. -/
def get_content_bounds (img : Image) : Option (ℕ × ℕ × ℕ × ℕ) :=
  match contentPoints img with
  | [] => none
  | p :: ps =>
    some (((p :: ps).map Prod.fst).foldr min p.1,
          ((p :: ps).map Prod.snd).foldr min p.2,
          ((p :: ps).map Prod.fst).foldr max p.1 + 1,
          ((p :: ps).map Prod.snd).foldr max p.2 + 1)

section Pipeline

/- The external `center_in_frame` collaborator (pixel pasting is outside
the modelled core; the pipeline is parametric in it). -/
variable (center : Image → Image)

/-- The flame-loading loop of `create_combined_animation`: blacken, skip a
frame whose bounds are `None` (fully transparent), then center. -/
def loadFlameFrames (raws : List Image) : List Image :=
  ((raws.map make_pure_black).filter
    (fun im => (get_content_bounds im).isSome)).map center

/-- The skull-loading loop of `create_combined_animation`: blacken and
center every frame — no transparency check is performed. -/
def loadSkullFrames (raws : List Image) : List Image :=
  (raws.map make_pure_black).map center

/-- Combined frame count: `lcm(len(skull_frames), len(flame_frames))`
computed on the loaded (post-filter) sequences. -/
def numCombinedFrames (skullRaws flameRaws : List Image) : ℕ :=
  lcmPy (loadSkullFrames center skullRaws).length
        (loadFlameFrames center flameRaws).length

end Pipeline

/-- The compositing tail of `create_combined_animation`, on the loaded
frame lists: `lcm` raises `ZeroDivisionError` when both sequences are
empty; each combined frame pastes `skulls[i % len]` and `flames[i % len]`
(an out-of-range index would raise `IndexError`); finally `gif_frames[0]`
raises `IndexError` when no frame was produced.  Aborts are `none`. -/
def create_combined_animation (skulls flames : List Image) :
    Option (List (Image × Image)) :=
  if Nat.gcd skulls.length flames.length = 0 then none
  else
    match (List.range (lcmPy skulls.length flames.length)).mapM
      (fun i => do
        let s ← skulls[i % skulls.length]?
        let f ← flames[i % flames.length]?
        pure (s, f)) with
    | none => none
    | some [] => none
    | some (fr :: frs) => some (fr :: frs)

/-! ### Keyframe generation (`generate_svg` / `create_animated_svg`) -/

/-- `start_pct = i * frame_pct` with `frame_pct = 100 / num_frames`. -/
def frameStartPct (n : ℕ) (k : ℕ) : ℚ := k * (100 / n)

/-- `end_pct = (i + 1) * frame_pct`. -/
def frameEndPct (n : ℕ) (k : ℕ) : ℚ := (k + 1) * (100 / n)

/-- Frame `k` of `n` is visible at percentage `q` of the loop: the CSS
emitted for it holds opacity 1 exactly on `[start_pct, end_pct)`. -/
def visibleAt (n k : ℕ) (q : ℚ) : Prop :=
  frameStartPct n k ≤ q ∧ q < frameEndPct n k


/-! ### Character class facts -/

lemma isDigit_isAlpha_false {c : Char} (h : c.isDigit = true) : c.isAlpha = false := by
  simp [Char.isDigit, Char.isAlpha, Char.isUpper, Char.isLower,
    UInt32.le_def, BitVec.le_def] at *
  omega

lemma isNumStart_cases {c : Char} (h : isNumStart c = true) :
    c = '-' ∨ c = '.' ∨ c.isDigit = true := by
  simpa [isNumStart, or_assoc] using h

lemma isNumStart_isAlpha_false {c : Char} (h : isNumStart c = true) :
    c.isAlpha = false := by
  rcases isNumStart_cases h with h | h | h
  · subst h; decide
  · subst h; decide
  · exact isDigit_isAlpha_false h

lemma isDigit_isNumStart {c : Char} (h : c.isDigit = true) : isNumStart c = true := by
  simp [isNumStart, h]

lemma isDigit_isDigitDot {c : Char} (h : c.isDigit = true) : isDigitDot c = true := by
  simp [isDigitDot, h]

lemma isDigitDot_false_isDigit {c : Char} (h : isDigitDot c = false) :
    c.isDigit = false := by
  simp [isDigitDot] at h; exact h.1

lemma isDigitDot_false_ne_dot {c : Char} (h : isDigitDot c = false) : c ≠ '.' := by
  simp [isDigitDot] at h; exact h.2

lemma isDigit_ne_dash {c : Char} (h : c.isDigit = true) : c ≠ '-' := by
  intro he; subst he; exact absurd h (by decide)

lemma isDigit_ne_dot {c : Char} (h : c.isDigit = true) : c ≠ '.' := by
  intro he; subst he; exact absurd h (by decide)

lemma cmd_not_numStart : ∀ c ∈ cmdAlphabet, isNumStart c = false := by decide

lemma cmd_not_digitDot : ∀ c ∈ cmdAlphabet, isDigitDot c = false := by decide

lemma contains_cmd_iff {c : Char} : cmdAlphabet.contains c = true ↔ c ∈ cmdAlphabet := by
  simp

/-- The head of `r` (if any) does not continue a number: `r` neither starts
with a digit nor with `'.'`. -/
def notDD : List Char → Prop
  | [] => True
  | x :: _ => isDigitDot x = false

lemma notDD_nil : notDD [] := trivial

lemma notDD_cons {x : Char} {r : List Char} (h : isDigitDot x = false) :
    notDD (x :: r) := h

lemma notDD_takeWhile {r : List Char} (h : notDD r) :
    r.takeWhile Char.isDigit = [] := by
  cases r with
  | nil => rfl
  | cons x xs =>
    exact List.takeWhile_cons_of_neg (by simp [isDigitDot_false_isDigit h])

lemma notDD_dropWhile {r : List Char} (h : notDD r) :
    r.dropWhile Char.isDigit = r := by
  cases r with
  | nil => rfl
  | cons x xs =>
    exact List.dropWhile_cons_of_neg (by simp [isDigitDot_false_isDigit h])

/-! ### `numBody` / `matchNum` structure -/

lemma numBody_int {a r : List Char} (ha : ∀ c ∈ a, c.isDigit = true)
    (hne : a ≠ []) (hr : notDD r) : numBody (a ++ r) = some (a, r) := by
  have ht : (a ++ r).takeWhile Char.isDigit = a := by
    rw [List.takeWhile_append_of_pos ha, notDD_takeWhile hr, List.append_nil]
  have hd : (a ++ r).dropWhile Char.isDigit = r := by
    rw [List.dropWhile_append_of_pos ha, notDD_dropWhile hr]
  unfold numBody
  rw [ht, hd]
  cases r with
  | nil => simp [hne]
  | cons x xs =>
    have hx : x ≠ '.' := isDigitDot_false_ne_dot hr
    dsimp only
    split
    · rename_i heq
      exact absurd heq hx
    · simp [hne]


lemma numBody_frac {a b r : List Char} (ha : ∀ c ∈ a, c.isDigit = true)
    (hb : ∀ c ∈ b, c.isDigit = true) (hbne : b ≠ []) (hr : notDD r) :
    numBody (a ++ '.' :: (b ++ r)) = some (a ++ '.' :: b, r) := by
  have ht : (a ++ '.' :: (b ++ r)).takeWhile Char.isDigit = a := by
    rw [List.takeWhile_append_of_pos ha,
      List.takeWhile_cons_of_neg (by decide), List.append_nil]
  have hd : (a ++ '.' :: (b ++ r)).dropWhile Char.isDigit = '.' :: (b ++ r) := by
    rw [List.dropWhile_append_of_pos ha, List.dropWhile_cons_of_neg (by decide)]
  have ht2 : (b ++ r).takeWhile Char.isDigit = b := by
    rw [List.takeWhile_append_of_pos hb, notDD_takeWhile hr, List.append_nil]
  have hd2 : (b ++ r).dropWhile Char.isDigit = r := by
    rw [List.dropWhile_append_of_pos hb, notDD_dropWhile hr]
  unfold numBody
  rw [ht, hd]
  dsimp only
  rw [ht2, hd2]
  simp [hbne]

lemma numBody_intdot {a r : List Char} (ha : ∀ c ∈ a, c.isDigit = true)
    (hne : a ≠ []) (hr : notDD r) :
    numBody (a ++ '.' :: r) = some (a, '.' :: r) := by
  have ht : (a ++ '.' :: r).takeWhile Char.isDigit = a := by
    rw [List.takeWhile_append_of_pos ha,
      List.takeWhile_cons_of_neg (by decide), List.append_nil]
  have hd : (a ++ '.' :: r).dropWhile Char.isDigit = '.' :: r := by
    rw [List.dropWhile_append_of_pos ha, List.dropWhile_cons_of_neg (by decide)]
  unfold numBody
  rw [ht, hd]
  dsimp only
  rw [notDD_takeWhile hr]
  simp [hne]

lemma numBody_notDD {cs : List Char} (h : notDD cs) : numBody cs = none := by
  have ht : cs.takeWhile Char.isDigit = [] := notDD_takeWhile h
  have hd : cs.dropWhile Char.isDigit = cs := notDD_dropWhile h
  unfold numBody
  rw [ht, hd]
  cases cs with
  | nil => rfl
  | cons x xs =>
    have hx : x ≠ '.' := isDigitDot_false_ne_dot h
    dsimp only
    split
    · rename_i heq
      exact absurd heq hx
    · simp

lemma numBody_dotOnly {r : List Char} (hr : notDD r) :
    numBody ('.' :: r) = none := by
  have ht : ('.' :: r).takeWhile Char.isDigit = [] :=
    List.takeWhile_cons_of_neg (by decide)
  have hd : ('.' :: r).dropWhile Char.isDigit = '.' :: r :=
    List.dropWhile_cons_of_neg (by decide)
  unfold numBody
  rw [ht, hd]
  dsimp only
  rw [notDD_takeWhile hr]
  simp

lemma isNumStart_false_parts {c : Char} (h : isNumStart c = false) :
    c ≠ '-' ∧ c ≠ '.' ∧ c.isDigit = false := by
  simpa [isNumStart, not_or, and_assoc] using h

lemma isNumStart_false_isDigitDot {c : Char} (h : isNumStart c = false) :
    isDigitDot c = false := by
  obtain ⟨_, h2, h3⟩ := isNumStart_false_parts h
  simp [isDigitDot, h2, h3]

lemma matchNum_notStart {c : Char} {cs : List Char} (h : isNumStart c = false) :
    matchNum (c :: cs) = none := by
  obtain ⟨h1, h2, h3⟩ := isNumStart_false_parts h
  unfold matchNum
  dsimp only
  rw [if_neg h1]
  exact numBody_notDD (notDD_cons (isNumStart_false_isDigitDot h))

lemma matchNum_int {a r : List Char} (ha : ∀ c ∈ a, c.isDigit = true)
    (hne : a ≠ []) (hr : notDD r) : matchNum (a ++ r) = some (a, r) := by
  obtain ⟨c, a2, rfl⟩ := List.exists_cons_of_ne_nil hne
  have hc : c.isDigit = true := ha c (List.mem_cons_self c a2)
  rw [List.cons_append]
  unfold matchNum
  dsimp only
  rw [if_neg (isDigit_ne_dash hc), ← List.cons_append]
  exact numBody_int ha hne hr

lemma matchNum_neg_some {t t2 r : List Char}
    (h : numBody t = some (t2, r)) :
    matchNum ('-' :: t) = some ('-' :: t2, r) := by
  unfold matchNum
  dsimp only
  rw [if_pos rfl]
  simp only [h]

lemma matchNum_neg_none {t : List Char} (h : numBody t = none) :
    matchNum ('-' :: t) = none := by
  unfold matchNum
  dsimp only
  rw [if_pos rfl]
  simp only [h]

lemma numBody_some_shape {cs t r : List Char} (h : numBody cs = some (t, r)) :
    cs = t ++ r ∧ t ≠ [] := by
  have hcs : cs.takeWhile Char.isDigit ++ cs.dropWhile Char.isDigit = cs :=
    List.takeWhile_append_dropWhile Char.isDigit cs
  unfold numBody at h
  dsimp only at h
  split at h
  · rename_i c r2 heq
    split at h
    · rename_i hc
      split at h
      · rename_i hds2
        injection h with hpair
        injection hpair with h1 h2
        constructor
        · rw [← hcs, heq, hc, ← h1, ← h2]
          have h3 : r2.takeWhile Char.isDigit ++ r2.dropWhile Char.isDigit = r2 :=
            List.takeWhile_append_dropWhile Char.isDigit r2
          simp only [List.append_assoc, List.cons_append, List.nil_append]
          rw [h3]
        · rw [← h1]; simp
      · split at h
        · rename_i hds
          injection h with hpair
          injection hpair with h1 h2
          exact ⟨by rw [← hcs, heq, ← h1, ← h2], by rw [← h1]; exact hds⟩
        · exact absurd h (by simp)
    · split at h
      · rename_i hds
        injection h with hpair
        injection hpair with h1 h2
        exact ⟨by rw [← hcs, heq, ← h1, ← h2], by rw [← h1]; exact hds⟩
      · exact absurd h (by simp)
  · rename_i heq
    split at h
    · rename_i hds
      injection h with hpair
      injection hpair with h1 h2
      exact ⟨by rw [← hcs, heq, ← h1, ← h2], by rw [← h1]; exact hds⟩
    · exact absurd h (by simp)

lemma matchNum_some_shape {cs t r : List Char} (h : matchNum cs = some (t, r)) :
    cs = t ++ r ∧ t ≠ [] := by
  cases cs with
  | nil => exact absurd h (by simp [matchNum])
  | cons c rest =>
    unfold matchNum at h
    dsimp only at h
    split at h
    · rename_i hc
      subst hc
      split at h
      · rename_i t2 r2 heq
        injection h with hpair
        injection hpair with h1 h2
        obtain ⟨hr1, _⟩ := numBody_some_shape heq
        subst h2
        rw [← h1]
        exact ⟨by rw [hr1]; rfl, by simp⟩
      · exact absurd h (by simp)
    · exact numBody_some_shape h

lemma matchNum_some_length {c : Char} {rest t r : List Char}
    (h : matchNum (c :: rest) = some (t, r)) : r.length ≤ rest.length := by
  obtain ⟨heq, hne⟩ := matchNum_some_shape h
  have : (c :: rest).length = t.length + r.length := by rw [heq]; simp
  have ht : 1 ≤ t.length := by
    cases t with
    | nil => exact absurd rfl hne
    | cons _ _ => simp
  simp at this
  omega


/-! ### Fuel invariance and unfolding equations -/

lemma length_dropWhile_le (p : Char → Bool) (l : List Char) :
    (l.dropWhile p).length ≤ l.length := by
  induction l with
  | nil => simp
  | cons x xs ih =>
    rw [List.dropWhile_cons]
    split
    · exact le_trans ih (by simp)
    · exact le_refl _

lemma findNumsAux_nil (f : ℕ) : findNumsAux f [] = [] := by cases f <;> rfl

lemma findNumsAux_congr : ∀ f1 : ℕ, ∀ {f2 : ℕ} {d : List Char},
    d.length ≤ f1 → d.length ≤ f2 → findNumsAux f1 d = findNumsAux f2 d := by
  intro f1
  induction f1 using Nat.strong_induction_on with
  | _ f1 ih =>
    intro f2 d h1 h2
    cases d with
    | nil => rw [findNumsAux_nil, findNumsAux_nil]
    | cons c rest =>
      simp only [List.length_cons] at h1 h2
      obtain ⟨a, rfl⟩ : ∃ a, f1 = a + 1 := ⟨f1 - 1, by omega⟩
      obtain ⟨b, rfl⟩ : ∃ b, f2 = b + 1 := ⟨f2 - 1, by omega⟩
      unfold findNumsAux
      cases hm : matchNum (c :: rest) with
      | some tr =>
        obtain ⟨t, r⟩ := tr
        simp only []
        have hlen := matchNum_some_length hm
        exact congrArg (t :: ·) (ih a (by omega) (by omega) (by omega))
      | none =>
        simp only []
        exact ih a (by omega) (by omega) (by omega)

lemma findNums_cons_some {c : Char} {rest t r : List Char}
    (h : matchNum (c :: rest) = some (t, r)) :
    findNums (c :: rest) = t :: findNums r := by
  have hlen := matchNum_some_length h
  show findNumsAux (rest.length + 1) (c :: rest) = _
  unfold findNumsAux
  simp only [h]
  exact congrArg (t :: ·) (findNumsAux_congr rest.length hlen (le_refl _))

lemma findNums_cons_none {c : Char} {rest : List Char}
    (h : matchNum (c :: rest) = none) :
    findNums (c :: rest) = findNums rest := by
  show findNumsAux (rest.length + 1) (c :: rest) = _
  unfold findNumsAux
  simp only [h]
  rfl

lemma rebuildPathAux_nil (f : ℕ) (nums : List ℚ) :
    rebuildPathAux f [] nums = [] := by cases f <;> rfl

lemma rebuildPathAux_congr : ∀ f1 : ℕ, ∀ {f2 : ℕ} {d : List Char} {nums : List ℚ},
    d.length ≤ f1 → d.length ≤ f2 →
    rebuildPathAux f1 d nums = rebuildPathAux f2 d nums := by
  intro f1
  induction f1 using Nat.strong_induction_on with
  | _ f1 ih =>
    intro f2 d nums h1 h2
    cases d with
    | nil => rw [rebuildPathAux_nil, rebuildPathAux_nil]
    | cons c rest =>
      simp only [List.length_cons] at h1 h2
      obtain ⟨a, rfl⟩ : ∃ a, f1 = a + 1 := ⟨f1 - 1, by omega⟩
      obtain ⟨b, rfl⟩ : ∃ b, f2 = b + 1 := ⟨f2 - 1, by omega⟩
      unfold rebuildPathAux
      have hdw := length_dropWhile_le isDigitDot rest
      by_cases hca : c.isAlpha
      · rw [if_pos hca, if_pos hca]
        exact congrArg (c :: ·) (ih a (by omega) (by omega) (by omega))
      · rw [if_neg hca, if_neg hca]
        by_cases hcn : isNumStart c
        · rw [if_pos hcn, if_pos hcn]
          cases nums with
          | nil => exact ih a (by omega) (by omega) (by omega)
          | cons v vs =>
            exact congrArg (fmt v ++ ·) (ih a (by omega) (by omega) (by omega))
        · rw [if_neg hcn, if_neg hcn]
          exact congrArg (c :: ·) (ih a (by omega) (by omega) (by omega))

lemma rebuild_path_alpha {c : Char} {rest : List Char} {nums : List ℚ}
    (h : c.isAlpha = true) :
    rebuild_path (c :: rest) nums = c :: rebuild_path rest nums := by
  show rebuildPathAux (rest.length + 1) (c :: rest) nums = _
  unfold rebuildPathAux
  rw [if_pos h]
  rfl

lemma rebuild_path_other {c : Char} {rest : List Char} {nums : List ℚ}
    (h1 : c.isAlpha = false) (h2 : isNumStart c = false) :
    rebuild_path (c :: rest) nums = c :: rebuild_path rest nums := by
  show rebuildPathAux (rest.length + 1) (c :: rest) nums = _
  unfold rebuildPathAux
  rw [if_neg (by simp [h1]), if_neg (by simp [h2])]
  rfl

lemma rebuild_path_num_nil {c : Char} {rest : List Char}
    (h : isNumStart c = true) :
    rebuild_path (c :: rest) [] = rebuild_path (rest.dropWhile isDigitDot) [] := by
  show rebuildPathAux (rest.length + 1) (c :: rest) [] = _
  unfold rebuildPathAux
  rw [if_neg (by simp [isNumStart_isAlpha_false h]), if_pos h]
  exact rebuildPathAux_congr rest.length (length_dropWhile_le _ _) (le_refl _)

lemma rebuild_path_num_cons {c : Char} {rest : List Char} {v : ℚ} {vs : List ℚ}
    (h : isNumStart c = true) :
    rebuild_path (c :: rest) (v :: vs) =
      fmt v ++ rebuild_path (rest.dropWhile isDigitDot) vs := by
  show rebuildPathAux (rest.length + 1) (c :: rest) (v :: vs) = _
  unfold rebuildPathAux
  rw [if_neg (by simp [isNumStart_isAlpha_false h]), if_pos h]
  exact congrArg (fmt v ++ ·)
    (rebuildPathAux_congr rest.length (length_dropWhile_le _ _) (le_refl _))

lemma scanCountAux_nil (f : ℕ) : scanCountAux f [] = 0 := by cases f <;> rfl

lemma scanCountAux_congr : ∀ f1 : ℕ, ∀ {f2 : ℕ} {d : List Char},
    d.length ≤ f1 → d.length ≤ f2 → scanCountAux f1 d = scanCountAux f2 d := by
  intro f1
  induction f1 using Nat.strong_induction_on with
  | _ f1 ih =>
    intro f2 d h1 h2
    cases d with
    | nil => rw [scanCountAux_nil, scanCountAux_nil]
    | cons c rest =>
      simp only [List.length_cons] at h1 h2
      obtain ⟨a, rfl⟩ : ∃ a, f1 = a + 1 := ⟨f1 - 1, by omega⟩
      obtain ⟨b, rfl⟩ : ∃ b, f2 = b + 1 := ⟨f2 - 1, by omega⟩
      unfold scanCountAux
      have hdw := length_dropWhile_le isDigitDot rest
      by_cases hca : c.isAlpha
      · rw [if_pos hca, if_pos hca]
        exact ih a (by omega) (by omega) (by omega)
      · rw [if_neg hca, if_neg hca]
        by_cases hcn : isNumStart c
        · rw [if_pos hcn, if_pos hcn]
          exact congrArg (· + 1) (ih a (by omega) (by omega) (by omega))
        · rw [if_neg hcn, if_neg hcn]
          exact ih a (by omega) (by omega) (by omega)

lemma scanCount_alpha {c : Char} {rest : List Char} (h : c.isAlpha = true) :
    scanCount (c :: rest) = scanCount rest := by
  show scanCountAux (rest.length + 1) (c :: rest) = _
  unfold scanCountAux
  rw [if_pos h]
  rfl

lemma scanCount_other {c : Char} {rest : List Char}
    (h1 : c.isAlpha = false) (h2 : isNumStart c = false) :
    scanCount (c :: rest) = scanCount rest := by
  show scanCountAux (rest.length + 1) (c :: rest) = _
  unfold scanCountAux
  rw [if_neg (by simp [h1]), if_neg (by simp [h2])]
  rfl

lemma scanCount_num {c : Char} {rest : List Char} (h : isNumStart c = true) :
    scanCount (c :: rest) = scanCount (rest.dropWhile isDigitDot) + 1 := by
  show scanCountAux (rest.length + 1) (c :: rest) = _
  unfold scanCountAux
  rw [if_neg (by simp [isNumStart_isAlpha_false h]), if_pos h]
  exact congrArg (· + 1)
    (scanCountAux_congr rest.length (length_dropWhile_le _ _) (le_refl _))


/-- The head of `r` (if any) does not start a number. -/
def notNS : List Char → Prop
  | [] => True
  | x :: _ => isNumStart x = false

lemma notNS_notDD {r : List Char} (h : notNS r) : notDD r := by
  cases r with
  | nil => trivial
  | cons x xs => exact notDD_cons (isNumStart_false_isDigitDot h)

lemma runsOKAux_nil (strong : Bool) (f : ℕ) : runsOKAux strong f [] = true := by
  cases f <;> rfl

lemma runsOKAux_congr : ∀ f1 : ℕ, ∀ {f2 : ℕ} {strong : Bool} {d : List Char},
    d.length ≤ f1 → d.length ≤ f2 →
    runsOKAux strong f1 d = runsOKAux strong f2 d := by
  intro f1
  induction f1 using Nat.strong_induction_on with
  | _ f1 ih =>
    intro f2 strong d h1 h2
    cases d with
    | nil => rw [runsOKAux_nil, runsOKAux_nil]
    | cons c rest =>
      simp only [List.length_cons] at h1 h2
      obtain ⟨a, rfl⟩ : ∃ a, f1 = a + 1 := ⟨f1 - 1, by omega⟩
      obtain ⟨b, rfl⟩ : ∃ b, f2 = b + 1 := ⟨f2 - 1, by omega⟩
      unfold runsOKAux
      have hdw := length_dropWhile_le isDigitDot rest
      by_cases hcn : isNumStart c
      · rw [if_pos hcn, if_pos hcn]
        have h5 := @ih a (show a < a + 1 by omega) b strong
          (rest.dropWhile isDigitDot)
          (show (rest.dropWhile isDigitDot).length ≤ a by omega)
          (show (rest.dropWhile isDigitDot).length ≤ b by omega)
        dsimp only
        rw [h5]
      · rw [if_neg hcn, if_neg hcn]
        exact ih a (by omega) (by omega) (by omega)

lemma runsOKAux_num_destruct {strong : Bool} {c : Char} {rest : List Char}
    (h : isNumStart c = true)
    (hok : runsOKAux strong (c :: rest).length (c :: rest) = true) :
    ((c :: rest.takeWhile isDigitDot).count '.' ≤ 1) ∧
    (strong = true →
      ((c :: rest.takeWhile isDigitDot).dropWhile (fun x => x ≠ '.')).length ≤ 2) ∧
    notNS (rest.dropWhile isDigitDot) ∧
    runsOKAux strong (rest.dropWhile isDigitDot).length
      (rest.dropWhile isDigitDot) = true := by
  rw [show (c :: rest).length = rest.length + 1 from rfl] at hok
  unfold runsOKAux at hok
  rw [if_pos h] at hok
  simp only [Bool.and_eq_true, decide_eq_true_eq, Bool.or_eq_true,
    Bool.not_eq_true'] at hok
  obtain ⟨⟨⟨h1, h2⟩, h3⟩, h4⟩ := hok
  refine ⟨h1, ?_, ?_, ?_⟩
  · intro hs
    rcases h2 with h2 | h2
    · rw [hs] at h2; exact absurd h2 (by simp)
    · exact h2
  · cases hb : rest.dropWhile isDigitDot with
    | nil => trivial
    | cons x xs =>
      rw [hb] at h3
      simpa using h3
  · rw [← runsOKAux_congr rest.length (length_dropWhile_le _ _) (le_refl _)]
    exact h4

lemma runsOKAux_other_step {strong : Bool} {c : Char} {rest : List Char}
    (h : isNumStart c = false) :
    runsOKAux strong (c :: rest).length (c :: rest) =
      runsOKAux strong rest.length rest := by
  rw [show (c :: rest).length = rest.length + 1 from rfl]
  conv_lhs => unfold runsOKAux
  rw [if_neg (by simp [h])]

lemma runsOKAux_weaken_aux : ∀ n : ℕ, ∀ {d : List Char}, d.length = n →
    runsOKAux true d.length d = true → runsOKAux false d.length d = true := by
  intro n
  induction n using Nat.strong_induction_on with
  | _ n ih =>
    intro d hn
    cases d with
    | nil => intro _; exact runsOKAux_nil false 0
    | cons c rest =>
      intro hok
      simp only [List.length_cons] at hn
      by_cases hcn : isNumStart c
      · obtain ⟨h1, _, h3, h4⟩ := runsOKAux_num_destruct hcn hok
        have hrec := ih (rest.dropWhile isDigitDot).length
          (by have := length_dropWhile_le isDigitDot rest; omega) rfl h4
        rw [show (c :: rest).length = rest.length + 1 from rfl]
        unfold runsOKAux
        rw [if_pos hcn]
        simp only [Bool.and_eq_true, decide_eq_true_eq]
        refine ⟨⟨⟨h1, by simp⟩, ?_⟩, ?_⟩
        · cases hb : rest.dropWhile isDigitDot with
          | nil => simp
          | cons x xs => rw [hb] at h3; simp [notNS] at h3; simp [h3]
        · rw [runsOKAux_congr rest.length (length_dropWhile_le _ _) (le_refl _)]
          exact hrec
      · rw [runsOKAux_other_step (Bool.not_eq_true _ ▸ eq_false_of_ne_true hcn)] at hok ⊢
        exact ih rest.length (by omega) rfl hok

lemma runsOKAux_weaken {d : List Char}
    (h : runsOKAux true d.length d = true) :
    runsOKAux false d.length d = true :=
  runsOKAux_weaken_aux d.length rfl h

lemma runsOKStrong_runsOK {d : List Char} (h : runsOKStrong d = true) :
    runsOK d = true := runsOKAux_weaken h


/-! ### Decimal digit serialization -/

lemma digitChar_isDigit {d : ℕ} (h : d < 10) : (Nat.digitChar d).isDigit = true := by
  interval_cases d <;> decide

lemma digitChar_decode {d : ℕ} (h : d < 10) : (Nat.digitChar d).toNat - 48 = d := by
  interval_cases d <;> decide

lemma natCharsAux_digits : ∀ fuel n : ℕ, ∀ c ∈ natCharsAux fuel n, c.isDigit = true := by
  intro fuel
  induction fuel with
  | zero => intro n c hc; simp [natCharsAux] at hc
  | succ f ih =>
    intro n c hc
    unfold natCharsAux at hc
    by_cases hn : n = 0
    · rw [if_pos hn] at hc; simp at hc
    · rw [if_neg hn] at hc
      rcases List.mem_append.1 hc with h | h
      · exact ih _ c h
      · simp only [List.mem_singleton] at h
        subst h
        exact digitChar_isDigit (Nat.mod_lt _ (by omega))

lemma natChars_digits (n : ℕ) : ∀ c ∈ natChars n, c.isDigit = true := by
  unfold natChars
  by_cases hn : n = 0
  · rw [if_pos hn]; intro c hc; simp at hc; subst hc; decide
  · rw [if_neg hn]; exact natCharsAux_digits n n

lemma natChars_ne_nil (n : ℕ) : natChars n ≠ [] := by
  unfold natChars
  by_cases hn : n = 0
  · rw [if_pos hn]; simp
  · rw [if_neg hn]
    obtain ⟨m, rfl⟩ : ∃ m, n = m + 1 := ⟨n - 1, by omega⟩
    unfold natCharsAux
    rw [if_neg hn]
    simp

lemma foldl_natCharsAux : ∀ fuel n acc : ℕ, n ≤ fuel →
    List.foldl (fun a c => 10 * a + (c.toNat - 48)) acc (natCharsAux fuel n) =
      acc * 10 ^ (natCharsAux fuel n).length + n := by
  intro fuel
  induction fuel with
  | zero =>
    intro n acc h
    interval_cases n
    simp [natCharsAux]
  | succ f ih =>
    intro n acc h
    by_cases hn : n = 0
    · subst hn; simp [natCharsAux]
    · unfold natCharsAux
      rw [if_neg hn]
      have hdiv : n / 10 ≤ f := by
        have := Nat.div_lt_self (by omega : 0 < n) (by norm_num : 1 < 10)
        omega
      rw [List.foldl_append, ih (n / 10) acc hdiv]
      simp only [List.foldl_cons, List.foldl_nil, List.length_append,
        List.length_singleton]
      rw [digitChar_decode (Nat.mod_lt _ (by omega))]
      have hmod := Nat.div_add_mod n 10
      rw [pow_succ]
      ring_nf
      omega

lemma natFromDigits_natChars (n : ℕ) : natFromDigits (natChars n) = n := by
  unfold natFromDigits natChars
  by_cases hn : n = 0
  · rw [if_pos hn]; subst hn; rfl
  · rw [if_neg hn]
    rw [foldl_natCharsAux n n 0 (le_refl n)]
    simp

lemma natFromDigits_single {d : ℕ} (h : d < 10) :
    natFromDigits [Nat.digitChar d] = d := by
  unfold natFromDigits
  simp only [List.foldl_cons, List.foldl_nil]
  rw [digitChar_decode h]
  simp


/-! ### Token values -/

lemma takeWhile_all {p : Char → Bool} {l : List Char} (h : ∀ c ∈ l, p c = true) :
    l.takeWhile p = l := by
  induction l with
  | nil => rfl
  | cons x xs ih =>
    rw [List.takeWhile_cons_of_pos (h x (List.mem_cons_self x xs))]
    rw [ih (fun c hc => h c (List.mem_cons_of_mem x hc))]

lemma dropWhile_all {p : Char → Bool} {l : List Char} (h : ∀ c ∈ l, p c = true) :
    l.dropWhile p = [] := by
  induction l with
  | nil => rfl
  | cons x xs ih =>
    rw [List.dropWhile_cons_of_pos (h x (List.mem_cons_self x xs))]
    exact ih (fun c hc => h c (List.mem_cons_of_mem x hc))

lemma bodyVal_digits {a : List Char} (ha : ∀ c ∈ a, c.isDigit = true) :
    bodyVal a = (natFromDigits a : ℚ) := by
  unfold bodyVal
  rw [takeWhile_all ha, dropWhile_all ha]

lemma bodyVal_frac {a b : List Char} (ha : ∀ c ∈ a, c.isDigit = true)
    (hb : ∀ c ∈ b, c.isDigit = true) :
    bodyVal (a ++ '.' :: b) =
      (natFromDigits a : ℚ) + (natFromDigits b : ℚ) / (10 : ℚ) ^ b.length := by
  unfold bodyVal
  rw [List.takeWhile_append_of_pos ha, List.takeWhile_cons_of_neg (by decide),
    List.append_nil, List.dropWhile_append_of_pos ha,
    List.dropWhile_cons_of_neg (by decide)]
  dsimp only
  rw [if_pos rfl, takeWhile_all hb]

lemma tokVal_digits {a : List Char} (ha : ∀ c ∈ a, c.isDigit = true)
    (hne : a ≠ []) : tokVal a = (natFromDigits a : ℚ) := by
  obtain ⟨c, a2, rfl⟩ := List.exists_cons_of_ne_nil hne
  unfold tokVal
  dsimp only
  rw [if_neg (isDigit_ne_dash (ha c (List.mem_cons_self c a2)))]
  exact bodyVal_digits ha

lemma tokVal_neg (t : List Char) : tokVal ('-' :: t) = -(bodyVal t) := by
  unfold tokVal
  dsimp only
  rw [if_pos rfl]

lemma tokVal_frac {a b : List Char} (ha : ∀ c ∈ a, c.isDigit = true)
    (hb : ∀ c ∈ b, c.isDigit = true) :
    tokVal (a ++ '.' :: b) =
      (natFromDigits a : ℚ) + (natFromDigits b : ℚ) / (10 : ℚ) ^ b.length := by
  cases a with
  | nil =>
    rw [List.nil_append]
    unfold tokVal
    dsimp only
    rw [if_neg (by decide)]
    exact bodyVal_frac (fun c hc => absurd hc (List.not_mem_nil c)) hb
  | cons c a2 =>
    rw [List.cons_append]
    unfold tokVal
    dsimp only
    rw [if_neg (isDigit_ne_dash (ha c (List.mem_cons_self c a2))), ← List.cons_append]
    exact bodyVal_frac ha hb

lemma matchNum_frac {a b r : List Char} (ha : ∀ c ∈ a, c.isDigit = true)
    (hane : a ≠ []) (hb : ∀ c ∈ b, c.isDigit = true) (hbne : b ≠ [])
    (hr : notDD r) :
    matchNum ((a ++ '.' :: b) ++ r) = some (a ++ '.' :: b, r) := by
  have hsplit : (a ++ '.' :: b) ++ r = a ++ '.' :: (b ++ r) := by simp
  rw [hsplit]
  obtain ⟨c, a2, rfl⟩ := List.exists_cons_of_ne_nil hane
  rw [List.cons_append]
  unfold matchNum
  dsimp only
  rw [if_neg (isDigit_ne_dash (ha c (List.mem_cons_self c a2))), ← List.cons_append]
  exact numBody_frac ha hb hbne hr

/-! ### Rounding -/

lemma rhe_intCast (k : ℤ) : rhe (k : ℚ) = k := by
  unfold rhe
  rw [Int.floor_intCast]
  rw [if_pos (by norm_num)]

lemma rhe_between (q : ℚ) : ⌊q⌋ ≤ rhe q ∧ rhe q ≤ ⌊q⌋ + 1 := by
  unfold rhe
  split
  · omega
  · split
    · omega
    · split <;> omega

lemma rhe_dist (q : ℚ) : q - 1/2 ≤ (rhe q : ℚ) ∧ (rhe q : ℚ) ≤ q + 1/2 := by
  have h1 : (⌊q⌋ : ℚ) ≤ q := Int.floor_le q
  have h2 : q < ⌊q⌋ + 1 := Int.lt_floor_add_one q
  unfold rhe
  split
  · rename_i hlt
    constructor <;> [linarith; linarith]
  · rename_i hge
    split
    · rename_i hgt
      push_cast
      constructor <;> [linarith; linarith]
    · rename_i hle
      have heq : q - ⌊q⌋ = 1/2 := by linarith [not_lt.mp hge, not_lt.mp hle]
      split
      · constructor <;> [linarith; linarith]
      · push_cast
        constructor <;> [linarith; linarith]


/-! ### `fmt` parses back to `fmtVal` -/

lemma tenth_num_cast {v : ℚ} (h : Tenth v) : ((10 * v).num : ℚ) = 10 * v :=
  Rat.coe_int_num_of_den_eq_one h

lemma rhe_tenth {v : ℚ} (h : Tenth v) : rhe (10 * v) = (10 * v).num := by
  conv_lhs => rw [← tenth_num_cast h]
  exact rhe_intCast _

lemma fmtVal_tenth {v : ℚ} (h : Tenth v) : fmtVal v = v := by
  unfold fmtVal
  by_cases h1 : v.den = 1
  · rw [if_pos h1]
  · rw [if_neg h1, rhe_tenth h, tenth_num_cast h]
    ring

lemma fmt_cases (v : ℚ) :
    (v.den = 1 ∧ 0 ≤ v.num ∧ fmt v = natChars v.num.natAbs) ∨
    (v.den = 1 ∧ v.num < 0 ∧ fmt v = '-' :: natChars v.num.natAbs) ∨
    (v.den ≠ 1 ∧ ¬ v < 0 ∧ fmt v =
      natChars ((rhe (10 * v)).natAbs / 10) ++
        '.' :: [Nat.digitChar ((rhe (10 * v)).natAbs % 10)]) ∨
    (v.den ≠ 1 ∧ v < 0 ∧ fmt v =
      '-' :: (natChars ((rhe (10 * v)).natAbs / 10) ++
        '.' :: [Nat.digitChar ((rhe (10 * v)).natAbs % 10)])) := by
  unfold fmt intChars
  by_cases h1 : v.den = 1
  · rw [if_pos h1]
    by_cases h2 : v.num < 0
    · rw [if_pos h2]; right; left; exact ⟨h1, h2, rfl⟩
    · rw [if_neg h2]; left; exact ⟨h1, by omega, rfl⟩
  · rw [if_neg h1]
    by_cases h2 : v < 0
    · rw [if_pos h2]; right; right; right; exact ⟨h1, h2, by simp⟩
    · rw [if_neg h2]; right; right; left; exact ⟨h1, h2, by simp⟩

lemma digit_singleton {n : ℕ} :
    ∀ c ∈ [Nat.digitChar (n % 10)], c.isDigit = true := by
  intro c hc
  simp only [List.mem_singleton] at hc
  subst hc
  exact digitChar_isDigit (Nat.mod_lt _ (by omega))

lemma fmt_matchNum {v : ℚ} {r : List Char} (hr : notDD r) :
    matchNum (fmt v ++ r) = some (fmt v, r) := by
  rcases fmt_cases v with ⟨h1, h2, he⟩ | ⟨h1, h2, he⟩ | ⟨h1, h2, he⟩ | ⟨h1, h2, he⟩ <;>
    rw [he]
  · exact matchNum_int (natChars_digits _) (natChars_ne_nil _) hr
  · rw [List.cons_append]
    exact matchNum_neg_some (numBody_int (natChars_digits _) (natChars_ne_nil _) hr)
  · exact matchNum_frac (natChars_digits _) (natChars_ne_nil _) digit_singleton
      (by simp) hr
  · rw [List.cons_append]
    have hsplit : (natChars ((rhe (10 * v)).natAbs / 10) ++
        '.' :: [Nat.digitChar ((rhe (10 * v)).natAbs % 10)]) ++ r =
        natChars ((rhe (10 * v)).natAbs / 10) ++
        '.' :: ([Nat.digitChar ((rhe (10 * v)).natAbs % 10)] ++ r) := by simp
    rw [hsplit]
    exact matchNum_neg_some (numBody_frac (natChars_digits _) digit_singleton
      (by simp) hr)

lemma natAbs_div_mod_value (n : ℕ) :
    ((n / 10 : ℕ) : ℚ) + ((n % 10 : ℕ) : ℚ) / (10 : ℚ) ^ (1 : ℕ) = (n : ℚ) / 10 := by
  have h : 10 * (n / 10) + n % 10 = n := Nat.div_add_mod n 10
  have hc : ((n : ℚ)) = 10 * ((n / 10 : ℕ) : ℚ) + ((n % 10 : ℕ) : ℚ) := by
    exact_mod_cast congrArg (Nat.cast : ℕ → ℚ) h.symm
  rw [hc]
  ring

lemma rhe_nonneg_of {v : ℚ} (h1 : v.den ≠ 1) (h2 : ¬ v < 0) :
    0 ≤ rhe (10 * v) := by
  have hv : 0 ≤ v := not_lt.mp h2
  have hfl : 0 ≤ ⌊10 * v⌋ := Int.floor_nonneg.mpr (by positivity)
  exact le_trans hfl (rhe_between (10 * v)).1

lemma rhe_nonpos_of {v : ℚ} (h2 : v < 0) : rhe (10 * v) ≤ 0 := by
  have h10 : (10 : ℚ) * v < 0 := by linarith
  have hfl : ⌊10 * v⌋ ≤ -1 := by
    have : ⌊10 * v⌋ < 0 := Int.floor_lt.mpr (by push_cast; linarith)
    omega
  have := (rhe_between (10 * v)).2
  omega

lemma tokVal_fmt (v : ℚ) : tokVal (fmt v) = fmtVal v := by
  rcases fmt_cases v with ⟨h1, h2, he⟩ | ⟨h1, h2, he⟩ | ⟨h1, h2, he⟩ | ⟨h1, h2, he⟩ <;>
    rw [he] <;> unfold fmtVal
  · rw [if_pos h1, tokVal_digits (natChars_digits _) (natChars_ne_nil _),
      natFromDigits_natChars]
    rw [← Int.cast_natCast (R := ℚ), Int.natAbs_of_nonneg h2]
    exact Rat.coe_int_num_of_den_eq_one h1
  · rw [if_pos h1, tokVal_neg, bodyVal_digits (natChars_digits _),
      natFromDigits_natChars]
    rw [← Int.cast_natCast (R := ℚ), Int.ofNat_natAbs_of_nonpos (le_of_lt h2),
      Int.cast_neg, neg_neg]
    exact Rat.coe_int_num_of_den_eq_one h1
  · rw [if_neg h1, tokVal_frac (natChars_digits _) digit_singleton,
      natFromDigits_natChars, natFromDigits_single (Nat.mod_lt _ (by omega))]
    rw [List.length_singleton, natAbs_div_mod_value]
    rw [show (((rhe (10 * v)).natAbs : ℕ) : ℚ) = ((rhe (10 * v) : ℤ) : ℚ) by
      push_cast [Int.cast_natAbs]
      exact abs_of_nonneg (by exact_mod_cast rhe_nonneg_of h1 h2)]
  · rw [if_neg h1, tokVal_neg, bodyVal_frac (natChars_digits _) digit_singleton,
      natFromDigits_natChars, natFromDigits_single (Nat.mod_lt _ (by omega))]
    rw [List.length_singleton, natAbs_div_mod_value]
    rw [show (((rhe (10 * v)).natAbs : ℕ) : ℚ) = -((rhe (10 * v) : ℤ) : ℚ) by
      push_cast [Int.cast_natAbs]
      exact abs_of_nonpos (by exact_mod_cast rhe_nonpos_of h2)]
    ring

lemma fmt_ne_nil (v : ℚ) : fmt v ≠ [] := by
  rcases fmt_cases v with ⟨_, _, he⟩ | ⟨_, _, he⟩ | ⟨_, _, he⟩ | ⟨_, _, he⟩ <;> rw [he]
  · exact natChars_ne_nil _
  · simp
  · simp [natChars_ne_nil]
  · simp

lemma fmt_numStart (v : ℚ) : ∀ c ∈ fmt v, isNumStart c = true := by
  have hnc : ∀ m : ℕ, ∀ c ∈ natChars m, isNumStart c = true :=
    fun m c hc => isDigit_isNumStart (natChars_digits m c hc)
  rcases fmt_cases v with ⟨_, _, he⟩ | ⟨_, _, he⟩ | ⟨_, _, he⟩ | ⟨_, _, he⟩ <;>
    rw [he] <;> intro c hc
  · exact hnc _ c hc
  · rcases List.mem_cons.1 hc with rfl | hc
    · decide
    · exact hnc _ c hc
  · rcases List.mem_append.1 hc with hc | hc
    · exact hnc _ c hc
    · rcases List.mem_cons.1 hc with rfl | hc
      · decide
      · exact isDigit_isNumStart (digit_singleton c hc)
  · rcases List.mem_cons.1 hc with rfl | hc
    · decide
    · rcases List.mem_append.1 hc with hc | hc
      · exact hnc _ c hc
      · rcases List.mem_cons.1 hc with rfl | hc
        · decide
        · exact isDigit_isNumStart (digit_singleton c hc)

lemma cmd_contains_eq_false {c : Char} (h : isNumStart c = true) :
    cmdAlphabet.contains c = false := by
  by_contra hc
  have hmem : c ∈ cmdAlphabet :=
    contains_cmd_iff.mp (by revert hc; cases cmdAlphabet.contains c <;> simp)
  rw [cmd_not_numStart c hmem] at h
  exact absurd h (by simp)


/-! ### Command skeleton preservation -/

lemma isDigitDot_isNumStart {c : Char} (h : isDigitDot c = true) :
    isNumStart c = true := by
  simp only [isDigitDot, Bool.or_eq_true, decide_eq_true_eq] at h
  rcases h with h | h
  · exact isDigit_isNumStart h
  · simp [isNumStart, h]

lemma cmd_not_mem {c : Char} (h : isNumStart c = true) : c ∉ cmdAlphabet :=
  fun hmem => by rw [cmd_not_numStart c hmem] at h; exact absurd h (by simp)

lemma filter_cmd_nil {l : List Char} (h : ∀ c ∈ l, isNumStart c = true) :
    l.filter (fun c => cmdAlphabet.contains c) = [] := by
  induction l with
  | nil => rfl
  | cons x xs ih =>
    rw [List.filter_cons_of_neg (by
      simpa using cmd_not_mem (h x (List.mem_cons_self x xs)))]
    exact ih (fun c hc => h c (List.mem_cons_of_mem x hc))

lemma commands_fmt (v : ℚ) : get_path_commands (fmt v) = [] :=
  filter_cmd_nil (fmt_numStart v)

lemma commands_append (x y : List Char) :
    get_path_commands (x ++ y) = get_path_commands x ++ get_path_commands y := by
  unfold get_path_commands
  rw [List.filter_append]

lemma commands_cons_numrun {c : Char} {rest : List Char}
    (hcn : isNumStart c = true) :
    get_path_commands (c :: rest) =
      get_path_commands (rest.dropWhile isDigitDot) := by
  conv_lhs => rw [← List.takeWhile_append_dropWhile isDigitDot rest]
  unfold get_path_commands
  rw [List.filter_cons_of_neg (by simpa using cmd_not_mem hcn),
    List.filter_append]
  rw [filter_cmd_nil (fun c hc =>
    isDigitDot_isNumStart (List.mem_takeWhile_imp hc))]
  rfl

/-! ### The rebuild/parse correspondence -/

lemma rebuild_head_notDD {r : List Char} {vs : List ℚ} (h : notNS r) :
    notDD (rebuild_path r vs) := by
  cases r with
  | nil => trivial
  | cons x t =>
    have hx : isNumStart x = false := h
    by_cases ha : x.isAlpha
    · rw [rebuild_path_alpha ha]
      exact notDD_cons (isNumStart_false_isDigitDot hx)
    · rw [rebuild_path_other (by simpa using ha) hx]
      exact notDD_cons (isNumStart_false_isDigitDot hx)

lemma parse_nil : parse_path_numbers [] = [] := rfl

lemma parse_cons_none {c : Char} {rest : List Char}
    (h : matchNum (c :: rest) = none) :
    parse_path_numbers (c :: rest) = parse_path_numbers rest := by
  unfold parse_path_numbers
  rw [findNums_cons_none h]

lemma rebuild_parse_aux : ∀ n : ℕ, ∀ d : List Char, d.length = n →
    ∀ vs : List ℚ, runsOK d = true → (∀ v ∈ vs, Tenth v) →
    parse_path_numbers (rebuild_path d vs) = vs.take (scanCount d) ∧
    get_path_commands (rebuild_path d vs) = get_path_commands d := by
  intro n
  induction n using Nat.strong_induction_on with
  | _ n ih =>
    intro d hn vs hok htenth
    cases d with
    | nil =>
      refine ⟨?_, rfl⟩
      show parse_path_numbers [] = vs.take (scanCount [])
      rw [parse_nil]
      rfl
    | cons c rest =>
      simp only [List.length_cons] at hn
      by_cases hcn : isNumStart c
      · obtain ⟨hdots, _, hNS, hrec⟩ := runsOKAux_num_destruct hcn hok
        have hd1 := length_dropWhile_le isDigitDot rest
        have hlt : (rest.dropWhile isDigitDot).length < n := by omega
        rw [scanCount_num hcn]
        cases vs with
        | nil =>
          rw [rebuild_path_num_nil hcn]
          obtain ⟨hp, hc⟩ := ih _ hlt _ rfl [] hrec (by simp)
          refine ⟨by rw [hp]; simp, ?_⟩
          rw [hc, commands_cons_numrun hcn]
        | cons v vs2 =>
          have hv : Tenth v := htenth v (List.mem_cons_self v vs2)
          have ht2 : ∀ w ∈ vs2, Tenth w :=
            fun w hw => htenth w (List.mem_cons_of_mem v hw)
          rw [rebuild_path_num_cons hcn]
          obtain ⟨hp, hc⟩ := ih _ hlt _ rfl vs2 hrec ht2
          have hout : notDD (rebuild_path (rest.dropWhile isDigitDot) vs2) :=
            rebuild_head_notDD hNS
          have hmn : matchNum (fmt v ++
              rebuild_path (rest.dropWhile isDigitDot) vs2) =
              some (fmt v, rebuild_path (rest.dropWhile isDigitDot) vs2) :=
            fmt_matchNum hout
          obtain ⟨c0, t0, he0⟩ := List.exists_cons_of_ne_nil (fmt_ne_nil v)
          constructor
          · unfold parse_path_numbers
            rw [show fmt v ++ rebuild_path (rest.dropWhile isDigitDot) vs2 =
              c0 :: (t0 ++ rebuild_path (rest.dropWhile isDigitDot) vs2) by
                rw [← List.cons_append, ← he0]]
            rw [findNums_cons_some (by rw [← List.cons_append, ← he0]; exact hmn)]
            rw [List.map_cons]
            rw [show tokVal (fmt v) = v by rw [tokVal_fmt, fmtVal_tenth hv]]
            rw [show (findNums (rebuild_path (rest.dropWhile isDigitDot) vs2)).map
              tokVal = parse_path_numbers
                (rebuild_path (rest.dropWhile isDigitDot) vs2) from rfl]
            rw [hp, List.take_succ_cons]
          · rw [commands_append, commands_fmt, List.nil_append, hc,
              commands_cons_numrun hcn]
      · have hcfalse0 : isNumStart c = false := eq_false_of_ne_true hcn
        have hok2 : runsOK rest = true := by
          have hstep := @runsOKAux_other_step false c rest hcfalse0
          unfold runsOK at hok ⊢
          rw [hstep] at hok
          exact hok
        have hlt : rest.length < n := by omega
        obtain ⟨hp, hc⟩ := ih _ hlt _ rfl vs hok2 htenth
        have hcfalse : isNumStart c = false := hcfalse0
        have hcopy : rebuild_path (c :: rest) vs = c :: rebuild_path rest vs := by
          by_cases ha : c.isAlpha
          · exact rebuild_path_alpha ha
          · exact rebuild_path_other (by simpa using ha) hcfalse
        have hscan : scanCount (c :: rest) = scanCount rest := by
          by_cases ha : c.isAlpha
          · exact scanCount_alpha ha
          · exact scanCount_other (by simpa using ha) hcfalse
        rw [hcopy, hscan]
        constructor
        · rw [parse_cons_none (matchNum_notStart hcfalse), hp]
        · unfold get_path_commands
          rw [List.filter_cons, List.filter_cons]
          have : List.filter (fun c => cmdAlphabet.contains c)
              (rebuild_path rest vs) = List.filter
              (fun c => cmdAlphabet.contains c) rest := hc
          rw [this]

lemma rebuild_parse {d : List Char} {vs : List ℚ} (hok : runsOK d = true)
    (htenth : ∀ v ∈ vs, Tenth v) :
    parse_path_numbers (rebuild_path d vs) = vs.take (scanCount d) ∧
    get_path_commands (rebuild_path d vs) = get_path_commands d :=
  rebuild_parse_aux d.length d rfl vs hok htenth


/-! ### Run-level analysis of the regex scan -/

lemma matchNum_dotOnly {r : List Char} (hr : notDD r) :
    matchNum ('.' :: r) = none := by
  unfold matchNum
  dsimp only
  rw [if_neg (by decide)]
  exact numBody_dotOnly hr

lemma matchNum_dotfrac {b r : List Char} (hb : ∀ c ∈ b, c.isDigit = true)
    (hbne : b ≠ []) (hr : notDD r) :
    matchNum ('.' :: (b ++ r)) = some ('.' :: b, r) := by
  unfold matchNum
  dsimp only
  rw [if_neg (by decide)]
  have h := numBody_frac (a := [])
    (fun c hc => absurd hc (List.not_mem_nil c)) hb hbne hr
  simpa using h

lemma matchNum_intdot {a r : List Char} (ha : ∀ c ∈ a, c.isDigit = true)
    (hane : a ≠ []) (hr : notDD r) :
    matchNum (a ++ '.' :: r) = some (a, '.' :: r) := by
  obtain ⟨c, a2, rfl⟩ := List.exists_cons_of_ne_nil hane
  rw [List.cons_append]
  unfold matchNum
  dsimp only
  rw [if_neg (isDigit_ne_dash (ha c (List.mem_cons_self c a2))), ← List.cons_append]
  exact numBody_intdot ha hane hr

lemma findNums_dot_skip {r : List Char} (hr : notDD r) :
    findNums ('.' :: r) = findNums r :=
  findNums_cons_none (matchNum_dotOnly hr)

lemma tenth_natCast (n : ℕ) : Tenth ((n : ℚ)) := by
  unfold Tenth
  rw [show (10 : ℚ) * (n : ℚ) = ((10 * n : ℕ) : ℚ) by push_cast; ring]
  exact Rat.den_natCast _

lemma tenth_neg {v : ℚ} (h : Tenth v) : Tenth (-v) := by
  unfold Tenth at *
  rw [mul_neg, Rat.den_neg_eq_den]
  exact h

lemma tenth_frac (a b : ℕ) :
    Tenth ((a : ℚ) + (b : ℚ) / (10 : ℚ) ^ (1 : ℕ)) := by
  unfold Tenth
  rw [show (10 : ℚ) * ((a : ℚ) + (b : ℚ) / (10 : ℚ) ^ (1 : ℕ)) =
    ((10 * a + b : ℕ) : ℚ) by push_cast; ring]
  exact Rat.den_natCast _

lemma digitDot_split {tw : List Char} (hdd : ∀ x ∈ tw, isDigitDot x = true)
    (hdots : tw.count '.' ≤ 1) :
    (∀ x ∈ tw, x.isDigit = true) ∨
    (∃ a b, tw = a ++ '.' :: b ∧ (∀ x ∈ a, x.isDigit = true) ∧
      (∀ x ∈ b, x.isDigit = true)) := by
  induction tw with
  | nil => left; intro x hx; exact absurd hx (List.not_mem_nil x)
  | cons x xs ih =>
    have hxdd : isDigitDot x = true := hdd x (List.mem_cons_self x xs)
    by_cases hx : x = '.'
    · subst hx
      right
      refine ⟨[], xs, by simp, fun y hy => absurd hy (List.not_mem_nil y), ?_⟩
      have hcount : xs.count '.' = 0 := by
        have := List.count_cons_self '.' xs
        omega
      intro y hy
      have hydd : isDigitDot y = true := hdd y (List.mem_cons_of_mem _ hy)
      have hyne : y ≠ '.' := by
        intro he
        subst he
        exact absurd hy (List.not_mem_of_count_eq_zero hcount)
      simp only [isDigitDot, Bool.or_eq_true, decide_eq_true_eq] at hydd
      rcases hydd with h | h
      · exact h
      · exact absurd h hyne
    · have hxd : x.isDigit = true := by
        simp only [isDigitDot, Bool.or_eq_true, decide_eq_true_eq] at hxdd
        rcases hxdd with h | h
        · exact h
        · exact absurd h hx
      have hcount : xs.count '.' ≤ 1 := by
        have := List.count_cons_of_ne (fun he => hx he.symm) xs
        omega
      rcases ih (fun y hy => hdd y (List.mem_cons_of_mem x hy)) hcount with h | h
      · left
        intro y hy
        rcases List.mem_cons.1 hy with rfl | hy
        · exact hxd
        · exact h y hy
      · obtain ⟨a, b, heq, ha, hb⟩ := h
        right
        refine ⟨x :: a, b, by rw [heq]; rfl, ?_, hb⟩
        intro y hy
        rcases List.mem_cons.1 hy with rfl | hy
        · exact hxd
        · exact ha y hy


lemma dropDot_compute {pre tb : List Char} (hpre : ∀ x ∈ pre, x ≠ '.') :
    ((pre ++ '.' :: tb).dropWhile (fun x => x ≠ '.')).length = tb.length + 1 := by
  rw [List.dropWhile_append_of_pos (fun a ha => by simp [hpre a ha]),
    List.dropWhile_cons_of_neg (by simp)]
  simp

lemma run_findNums {c : Char} {rest : List Char} (hcn : isNumStart c = true)
    (hdots : (c :: rest.takeWhile isDigitDot).count '.' ≤ 1)
    (hNS : notNS (rest.dropWhile isDigitDot)) :
    findNums (c :: rest) = findNums (rest.dropWhile isDigitDot) ∨
    ∃ t, findNums (c :: rest) = t :: findNums (rest.dropWhile isDigitDot) ∧
      (((c :: rest.takeWhile isDigitDot).dropWhile (fun x => x ≠ '.')).length ≤ 2 →
        Tenth (tokVal t)) := by
  have hrest : rest = rest.takeWhile isDigitDot ++ rest.dropWhile isDigitDot :=
    (List.takeWhile_append_dropWhile isDigitDot rest).symm
  set tw := rest.takeWhile isDigitDot with htw_def
  set dw := rest.dropWhile isDigitDot with hdw_def
  have hdd : ∀ x ∈ tw, isDigitDot x = true := fun x hx => List.mem_takeWhile_imp hx
  have hdw : notDD dw := notNS_notDD hNS
  rcases isNumStart_cases hcn with hc | hc | hc
  · -- c = '-'
    subst hc
    have hdots2 : tw.count '.' ≤ 1 := by
      have := List.count_cons_of_ne (show ('.' : Char) ≠ '-' by decide) tw
      omega
    rcases digitDot_split hdd hdots2 with htwd | ⟨ta, tb, htweq, hta, htb⟩
    · by_cases htw0 : tw = []
      · left
        rw [hrest, htw0, List.nil_append,
          findNums_cons_none (matchNum_neg_none (numBody_notDD hdw))]
      · right
        refine ⟨'-' :: tw, ?_, ?_⟩
        · rw [hrest, findNums_cons_some
            (matchNum_neg_some (numBody_int htwd htw0 hdw))]
        · intro _
          rw [tokVal_neg, bodyVal_digits htwd]
          exact tenth_neg (tenth_natCast _)
    · by_cases htb0 : tb = []
      · by_cases hta0 : ta = []
        · left
          subst htb0
          subst hta0
          rw [hrest, htweq, List.nil_append, List.cons_append, List.nil_append,
            findNums_cons_none (matchNum_neg_none (numBody_dotOnly hdw)),
            findNums_dot_skip hdw]
        · right
          subst htb0
          refine ⟨'-' :: ta, ?_, ?_⟩
          · rw [hrest, htweq]
            rw [show ta ++ '.' :: ([] : List Char) ++ dw = ta ++ '.' :: dw by simp]
            rw [findNums_cons_some
              (matchNum_neg_some (numBody_intdot hta hta0 hdw)),
              findNums_dot_skip hdw]
          · intro _
            rw [tokVal_neg, bodyVal_digits hta]
            exact tenth_neg (tenth_natCast _)
      · right
        refine ⟨'-' :: (ta ++ '.' :: tb), ?_, ?_⟩
        · rw [hrest, htweq]
          rw [show ta ++ '.' :: tb ++ dw = ta ++ '.' :: (tb ++ dw) by simp]
          rw [findNums_cons_some
            (matchNum_neg_some (numBody_frac hta htb htb0 hdw))]
        · intro hfrac
          have hlen : tb.length = 1 := by
            have hcomp : (('-' :: tw).dropWhile
                (fun x => x ≠ '.')).length = tb.length + 1 := by
              rw [htweq, show ('-' :: (ta ++ '.' :: tb)) =
                ('-' :: ta) ++ '.' :: tb by simp]
              exact dropDot_compute (fun x hx => by
                rcases List.mem_cons.1 hx with rfl | hx
                · decide
                · exact isDigit_ne_dot (hta x hx))
            rw [hcomp] at hfrac
            have : tb.length ≠ 0 := fun h0 =>
              htb0 (List.eq_nil_of_length_eq_zero h0)
            omega
          rw [tokVal_neg, bodyVal_frac hta htb, hlen]
          exact tenth_neg (tenth_frac _ _)
  · -- c = '.'
    subst hc
    have hcount0 : tw.count '.' = 0 := by
      have := List.count_cons_self ('.' : Char) tw
      omega
    have htwd : ∀ x ∈ tw, x.isDigit = true := by
      intro x hx
      have hxdd := hdd x hx
      have hxne : x ≠ '.' := fun he =>
        absurd hx (he ▸ List.not_mem_of_count_eq_zero hcount0)
      simp only [isDigitDot, Bool.or_eq_true, decide_eq_true_eq] at hxdd
      rcases hxdd with h | h
      · exact h
      · exact absurd h hxne
    by_cases htw0 : tw = []
    · left
      rw [hrest, htw0, List.nil_append, findNums_dot_skip hdw]
    · right
      refine ⟨'.' :: tw, ?_, ?_⟩
      · rw [hrest, findNums_cons_some (matchNum_dotfrac htwd htw0 hdw)]
      · intro hfrac
        have hlen : tw.length = 1 := by
          have hcomp : (('.' :: tw).dropWhile
              (fun x => x ≠ '.')).length = tw.length + 1 := by
            have := @dropDot_compute [] tw
              (fun x hx => absurd hx (List.not_mem_nil x))
            simpa using this
          rw [hcomp] at hfrac
          have : tw.length ≠ 0 := fun h0 =>
            htw0 (List.eq_nil_of_length_eq_zero h0)
          omega
        have hv := tokVal_frac (a := []) (b := tw)
          (fun x hx => absurd hx (List.not_mem_nil x)) htwd
        rw [List.nil_append] at hv
        rw [hv, hlen]
        exact tenth_frac _ _
  · -- c is a digit
    have hdots2 : tw.count '.' ≤ 1 := by
      have := List.count_cons_of_ne
        (show ('.' : Char) ≠ c from fun he => isDigit_ne_dot hc he.symm) tw
      omega
    rcases digitDot_split hdd hdots2 with htwd | ⟨ta, tb, htweq, hta, htb⟩
    · right
      have hcd2 : ∀ x ∈ c :: tw, x.isDigit = true := by
        intro x hx
        rcases List.mem_cons.1 hx with rfl | hx
        · exact hc
        · exact htwd x hx
      refine ⟨c :: tw, ?_, ?_⟩
      · have h1 : matchNum (c :: (tw ++ dw)) = some (c :: tw, dw) := by
          rw [← List.cons_append]
          exact matchNum_int hcd2 (by simp) hdw
        rw [hrest, findNums_cons_some h1]
      · intro _
        rw [tokVal_digits hcd2 (by simp)]
        exact tenth_natCast _
    · have hcta : ∀ x ∈ c :: ta, x.isDigit = true := by
        intro x hx
        rcases List.mem_cons.1 hx with rfl | hx
        · exact hc
        · exact hta x hx
      by_cases htb0 : tb = []
      · right
        subst htb0
        refine ⟨c :: ta, ?_, ?_⟩
        · have h1 : matchNum (c :: (tw ++ dw)) = some (c :: ta, '.' :: dw) := by
            rw [htweq, show (ta ++ '.' :: ([] : List Char)) ++ dw =
              ta ++ '.' :: dw by simp,
              show c :: (ta ++ '.' :: dw) = (c :: ta) ++ '.' :: dw by simp]
            exact matchNum_intdot hcta (by simp) hdw
          rw [hrest, findNums_cons_some h1, findNums_dot_skip hdw]
        · intro _
          rw [tokVal_digits hcta (by simp)]
          exact tenth_natCast _
      · right
        refine ⟨(c :: ta) ++ '.' :: tb, ?_, ?_⟩
        · have h1 : matchNum (c :: (tw ++ dw)) =
              some ((c :: ta) ++ '.' :: tb, dw) := by
            rw [htweq]
            have h2 := matchNum_frac (a := c :: ta) (b := tb) (r := dw)
              hcta (by simp) htb htb0 hdw
            simpa using h2
          rw [hrest, findNums_cons_some h1]
        · intro hfrac
          have hlen : tb.length = 1 := by
            have hcomp : ((c :: tw).dropWhile
                (fun x => x ≠ '.')).length = tb.length + 1 := by
              rw [htweq, show (c :: (ta ++ '.' :: tb)) =
                (c :: ta) ++ '.' :: tb by simp]
              exact dropDot_compute (fun x hx => isDigit_ne_dot (hcta x hx))
            rw [hcomp] at hfrac
            have : tb.length ≠ 0 := fun h0 =>
              htb0 (List.eq_nil_of_length_eq_zero h0)
            omega
          rw [tokVal_frac hcta htb, hlen]
          exact tenth_frac _ _


lemma parse_struct_aux : ∀ n : ℕ, ∀ d : List Char, d.length = n →
    ∀ strong : Bool, runsOKAux strong d.length d = true →
    (findNums d).length ≤ scanCount d ∧
    (strong = true → ∀ v ∈ parse_path_numbers d, Tenth v) := by
  intro n
  induction n using Nat.strong_induction_on with
  | _ n ih =>
    intro d hn strong hok
    cases d with
    | nil =>
      constructor
      · show (findNumsAux 0 []).length ≤ scanCountAux 0 []
        simp [findNumsAux, scanCountAux]
      · intro _ v hv
        exact absurd hv (by simp [parse_path_numbers, findNums, findNumsAux])
    | cons c rest =>
      simp only [List.length_cons] at hn
      by_cases hcn : isNumStart c
      · obtain ⟨hdots, hfr, hNS, hrec⟩ := runsOKAux_num_destruct hcn hok
        have hd1 := length_dropWhile_le isDigitDot rest
        have hlt : (rest.dropWhile isDigitDot).length < n := by omega
        obtain ⟨ihlen, ihten⟩ := ih _ hlt _ rfl strong hrec
        rw [scanCount_num hcn]
        rcases run_findNums hcn hdots hNS with heq | ⟨t, heq, hten⟩
        · constructor
          · rw [heq]; omega
          · intro hs v hv
            unfold parse_path_numbers at hv
            rw [heq] at hv
            exact ihten hs v hv
        · constructor
          · rw [heq]
            simp only [List.length_cons]
            omega
          · intro hs v hv
            unfold parse_path_numbers at hv
            rw [heq, List.map_cons] at hv
            rcases List.mem_cons.1 hv with rfl | hv
            · exact hten (hfr hs)
            · exact ihten hs v hv
      · have hcfalse : isNumStart c = false := eq_false_of_ne_true hcn
        have hok2 : runsOKAux strong rest.length rest = true := by
          rw [@runsOKAux_other_step strong c rest hcfalse] at hok
          exact hok
        have hlt : rest.length < n := by omega
        obtain ⟨ihlen, ihten⟩ := ih _ hlt _ rfl strong hok2
        have hskip := @findNums_cons_none c rest (matchNum_notStart hcfalse)
        have hscan : scanCount (c :: rest) = scanCount rest := by
          by_cases ha : c.isAlpha
          · exact scanCount_alpha ha
          · exact scanCount_other (by simpa using ha) hcfalse
        rw [hscan]
        constructor
        · rw [hskip]; exact ihlen
        · intro hs v hv
          unfold parse_path_numbers at hv
          rw [hskip] at hv
          exact ihten hs v hv

lemma parse_le_scan {d : List Char} (h : runsOK d = true) :
    (parse_path_numbers d).length ≤ scanCount d := by
  unfold parse_path_numbers
  rw [List.length_map]
  exact (parse_struct_aux d.length d rfl false h).1

lemma parse_tenth {d : List Char} (h : runsOKStrong d = true) :
    ∀ v ∈ parse_path_numbers d, Tenth v :=
  (parse_struct_aux d.length d rfl true h).2 rfl


/-! ### Exact rebuild and interpolation arithmetic -/

lemma rebuild_exact {d : List Char} {vs : List ℚ} (hok : runsOK d = true)
    (ht : ∀ v ∈ vs, Tenth v) (hlen : vs.length ≤ scanCount d) :
    parse_path_numbers (rebuild_path d vs) = vs ∧
    get_path_commands (rebuild_path d vs) = get_path_commands d := by
  obtain ⟨hp, hc⟩ := rebuild_parse hok ht
  refine ⟨?_, hc⟩
  rw [hp]
  exact List.take_of_length_le hlen

lemma zipWith_interp_zero : ∀ n1 n2 : List ℚ, n1.length = n2.length →
    n1.zipWith (fun a b => a + (b - a) * 0) n2 = n1 := by
  intro n1
  induction n1 with
  | nil => intro n2 _; rfl
  | cons x xs ih =>
    intro n2 h
    cases n2 with
    | nil => simp at h
    | cons y ys =>
      rw [List.zipWith_cons_cons, show x + (y - x) * 0 = x by ring,
        ih ys (by simpa using h)]

lemma zipWith_interp_one : ∀ n1 n2 : List ℚ, n1.length = n2.length →
    n1.zipWith (fun a b => a + (b - a) * 1) n2 = n2 := by
  intro n1
  induction n1 with
  | nil =>
    intro n2 h
    cases n2 with
    | nil => rfl
    | cons y ys => simp at h
  | cons x xs ih =>
    intro n2 h
    cases n2 with
    | nil => simp at h
    | cons y ys =>
      rw [List.zipWith_cons_cons, show x + (y - x) * 1 = y by ring,
        ih ys (by simpa using h)]

lemma interpolate_zero {n1 n2 : List ℚ} (h : n1.length = n2.length) :
    interpolate_numbers n1 n2 0 = n1 := by
  unfold interpolate_numbers
  rw [if_neg (by simp [h])]
  exact zipWith_interp_zero n1 n2 h

lemma interpolate_one {n1 n2 : List ℚ} (h : n1.length = n2.length) :
    interpolate_numbers n1 n2 1 = n2 := by
  unfold interpolate_numbers
  rw [if_neg (by simp [h])]
  exact zipWith_interp_one n1 n2 h

lemma interp_between {a b t : ℚ} (h0 : 0 ≤ t) (h1 : t ≤ 1) :
    min a b ≤ a + (b - a) * t ∧ a + (b - a) * t ≤ max a b := by
  rcases le_total a b with hab | hab
  · rw [min_eq_left hab, max_eq_right hab]
    constructor
    · nlinarith
    · nlinarith
  · rw [min_eq_right hab, max_eq_left hab]
    constructor
    · nlinarith
    · nlinarith

lemma fmtVal_dist (v : ℚ) : |fmtVal v - v| ≤ 1/20 := by
  unfold fmtVal
  by_cases h1 : v.den = 1
  · rw [if_pos h1]
    simp
  · rw [if_neg h1]
    obtain ⟨hlo, hhi⟩ := rhe_dist (10 * v)
    rw [abs_le]
    constructor <;> linarith


/-! Concrete test paths used in witnesses and counterexamples. -/

def dM1 : List Char := "M1".data

def dL1 : List Char := "L1".data

def dM256 : List Char := "M2.56".data

def dM26 : List Char := "M2.6".data

def dM15 : List Char := "M1.5".data

def dAdj : List Char := "M2.5.5L1".data

def dOkPath : List Char := "M2.5 -7Z".data

def dA1 : List Char := "M1.5,2Z".data

def dB1 : List Char := "M3,4.5Z".data

def dM106 : List Char := "M1.06".data

def dM108 : List Char := "M1.08".data

def dM11 : List Char := "M1.1".data

def dM1Z : List Char := "M1Z".data

def dM2Z : List Char := "M2Z".data

def dNineA : List Char := "M1 2 3C4 5 6 7 8 9Z".data

def dNineB : List Char := "M3 2 3C4 5 6 7 8 9Z".data

def dNineX : List Char := "M1.1 2 3C1 2 3 4 5 6Z".data

def dNineY : List Char := "M1.16 2 3C1 2 3 4 5 6Z".data

def dMal : List Char := "M-.L2.5.5Z".data

def dSeven : List Char := "7".data

/-! ### The claims -/

/-- C3: for every structurally incompatible pair of paths and every `t`,
`create_inbetween` returns `path1` unchanged when `t < 0.5` and `path2`
unchanged when `t ≥ 0.5`; no partial blend is attempted and (being a total
function) no error is raised. -/
theorem claim_C3 (A B : List Char) (t : ℚ) (h : ¬ compatible A B) :
    create_inbetween A B t = if t < 1/2 then A else B := by
  unfold create_inbetween
  dsimp only
  rw [if_neg (show ¬(get_path_commands A = get_path_commands B ∧
    (parse_path_numbers A).length = (parse_path_numbers B).length)
    from fun hh => h hh)]

theorem claim_C3_witness :
    (¬ compatible dM1 dL1) ∧
    create_inbetween dM1 dL1 (49/100) = dM1 ∧
    create_inbetween dM1 dL1 (51/100) = dL1 := by
  have hinc : ¬ compatible dM1 dL1 := by with_unfolding_all decide
  refine ⟨hinc, ?_, ?_⟩
  · rw [claim_C3 dM1 dL1 (49/100) hinc, if_pos (by norm_num)]
  · rw [claim_C3 dM1 dL1 (51/100) hinc, if_neg (by norm_num)]

/-- C2: for sequence lengths `L1, L2 ≥ 1` the combined frame count
`abs(L1*L2) // gcd(L1, L2)` is divisible by both lengths and is the least
positive such integer (the true LCM); every timeline index `i` below it
samples each sequence at local index `i mod Lk`, so each sequence completes
exactly `combined_length / Lk` whole cycles; `L1 = 11, L2 = 8` give 88. -/
theorem claim_C2 (L1 L2 : ℕ) (h1 : 1 ≤ L1) (h2 : 1 ≤ L2) :
    lcmPy L1 L2 % L1 = 0 ∧ lcmPy L1 L2 % L2 = 0 ∧ 0 < lcmPy L1 L2 ∧
    (∀ m : ℕ, 0 < m → m % L1 = 0 → m % L2 = 0 → lcmPy L1 L2 ≤ m) ∧
    (∀ i : ℕ, i < lcmPy L1 L2 →
      (combinedIndices L1 L2).get? i = some (i % L1, i % L2)) ∧
    lcmPy L1 L2 / L1 * L1 = lcmPy L1 L2 ∧
    lcmPy L1 L2 / L2 * L2 = lcmPy L1 L2 ∧
    lcmPy 11 8 = 88 := by
  have hlcm : lcmPy L1 L2 = Nat.lcm L1 L2 := rfl
  have hd1 : L1 ∣ lcmPy L1 L2 := hlcm ▸ Nat.dvd_lcm_left L1 L2
  have hd2 : L2 ∣ lcmPy L1 L2 := hlcm ▸ Nat.dvd_lcm_right L1 L2
  have hpos : 0 < lcmPy L1 L2 := by
    rw [hlcm]
    exact Nat.lcm_pos (by omega) (by omega)
  refine ⟨?_, ?_, hpos, ?_, ?_, ?_, ?_, ?_⟩
  · exact Nat.mod_eq_zero_of_dvd hd1
  · exact Nat.mod_eq_zero_of_dvd hd2
  · intro m hm hm1 hm2
    have hdm : Nat.lcm L1 L2 ∣ m :=
      Nat.lcm_dvd (Nat.dvd_of_mod_eq_zero hm1) (Nat.dvd_of_mod_eq_zero hm2)
    exact Nat.le_of_dvd hm (hlcm ▸ hdm)
  · intro i hi
    unfold combinedIndices
    rw [List.get?_map, List.get?_range hi]
    rfl
  · exact Nat.div_mul_cancel hd1
  · exact Nat.div_mul_cancel hd2
  · rfl

theorem claim_C2_witness :
    lcmPy 11 8 = 88 ∧ lcmPy 11 8 % 11 = 0 ∧ lcmPy 11 8 % 8 = 0 ∧
    (combinedIndices 11 8).get? 30 = some (30 % 11, 30 % 8) := by
  have h := claim_C2 11 8 (by norm_num) (by norm_num)
  exact ⟨h.2.2.2.2.2.2.2, h.1, h.2.1, h.2.2.2.2.1 30 (by norm_num [lcmPy])⟩

/-- C7: a zero-length constituent frame sequence aborts the combined
animation (via `ZeroDivisionError` in `lcm` when both are empty, else
`IndexError` at `gif_frames[0]`); no zero-frame output is produced. -/
theorem claim_C7 (skulls flames : List Image)
    (h : skulls = [] ∨ flames = []) :
    create_combined_animation skulls flames = none := by
  unfold create_combined_animation
  rcases h with rfl | rfl
  · cases flames with
    | nil => simp
    | cons f fs =>
      rw [if_neg (by simp [Nat.gcd])]
      have hz : lcmPy ([] : List Image).length (f :: fs).length = 0 := by
        simp [lcmPy]
      rw [hz]
      rfl
  · cases skulls with
    | nil => simp
    | cons sk sks =>
      rw [if_neg (by simp [Nat.gcd])]
      have hz : lcmPy (sk :: sks).length ([] : List Image).length = 0 := by
        simp [lcmPy]
      rw [hz]
      rfl

theorem claim_C7_witness :
    create_combined_animation [] [[[((0, 0, 0, 255) : Pixel)]]] = none :=
  claim_C7 [] [[[((0, 0, 0, 255) : Pixel)]]] (Or.inl rfl)


/-- C9 (amended): before the combined frame count is computed, fully
transparent frames are excluded from the flame sequence only; the skull
sequence keeps every frame regardless of transparency, and these two
(post-filter and unfiltered) lengths are what enter the LCM. -/
theorem claim_C9 (center : Image → Image) (skullRaws flameRaws : List Image) :
    (loadFlameFrames center flameRaws).length =
      (flameRaws.filter
        (fun im => (get_content_bounds (make_pure_black im)).isSome)).length ∧
    (loadSkullFrames center skullRaws).length = skullRaws.length ∧
    numCombinedFrames center skullRaws flameRaws =
      lcmPy skullRaws.length
        (flameRaws.filter
          (fun im => (get_content_bounds (make_pure_black im)).isSome)).length := by
  have hflame : (loadFlameFrames center flameRaws).length =
      (flameRaws.filter
        (fun im => (get_content_bounds (make_pure_black im)).isSome)).length := by
    unfold loadFlameFrames
    rw [List.length_map, List.filter_map, List.length_map]
    rfl
  have hskull : (loadSkullFrames center skullRaws).length = skullRaws.length := by
    unfold loadSkullFrames
    rw [List.length_map, List.length_map]
  refine ⟨hflame, hskull, ?_⟩
  unfold numCombinedFrames
  rw [hflame, hskull]

/-- C9 counterexample: a fully transparent skull frame is not excluded —
the loaded skull sequence still has length 1, although the same frame in
the flame sequence would have been dropped. -/
theorem claim_C9_counterexample :
    get_content_bounds (make_pure_black [[((0, 0, 0, 0) : Pixel)]]) = none ∧
    (loadSkullFrames (fun im => im) [[[((0, 0, 0, 0) : Pixel)]]]).length = 1 ∧
    (loadFlameFrames (fun im => im) [[[((0, 0, 0, 0) : Pixel)]]]).length = 0 := by
  refine ⟨rfl, rfl, rfl⟩

theorem claim_C9_witness :
    (loadFlameFrames (fun im => im) [[[((0, 0, 0, 255) : Pixel)]]]).length =
      ([[[((0, 0, 0, 255) : Pixel)]]].filter
        (fun im => (get_content_bounds (make_pure_black im)).isSome)).length ∧
    (loadSkullFrames (fun im => im) [[[((0, 0, 0, 0) : Pixel)]]]).length =
      [[[((0, 0, 0, 0) : Pixel)]]].length ∧
    numCombinedFrames (fun im => im) [[[((0, 0, 0, 0) : Pixel)]]]
        [[[((0, 0, 0, 255) : Pixel)]]] =
      lcmPy [[[((0, 0, 0, 0) : Pixel)]]].length
        ([[[((0, 0, 0, 255) : Pixel)]]].filter
          (fun im => (get_content_bounds (make_pure_black im)).isSome)).length :=
  claim_C9 (fun im => im) [[[((0, 0, 0, 0) : Pixel)]]] [[[((0, 0, 0, 255) : Pixel)]]]

/-- C6: for every total frame count `N ≥ 1`, frame `k` is assigned the
half-open visible interval `[k·(100/N), (k+1)·(100/N))` percent, and these
intervals exactly partition `[0, 100)`: at every queried percentage exactly
one frame descriptor is visible. -/
theorem claim_C6 (N : ℕ) (hN : 1 ≤ N) (q : ℚ) (h0 : 0 ≤ q) (h1 : q < 100) :
    ∃! k : ℕ, k < N ∧ visibleAt N k q := by
  have hNpos : (0 : ℚ) < (N : ℚ) := by exact_mod_cast Nat.lt_of_lt_of_le Nat.zero_lt_one hN
  have hcpos : (0 : ℚ) < 100 / (N : ℚ) := by positivity
  set x : ℚ := q * N / 100 with hx_def
  have hx0 : 0 ≤ x := by positivity
  have hxN : x < N := by
    rw [hx_def, div_lt_iff (by norm_num : (0:ℚ) < 100)]
    calc q * N < 100 * N := by exact mul_lt_mul_of_pos_right h1 hNpos
    _ = (N : ℚ) * 100 := by ring
  have hxq : x * (100 / N) = q := by
    rw [hx_def]
    field_simp
  have hfl0 : 0 ≤ ⌊x⌋ := Int.floor_nonneg.mpr hx0
  set k0 : ℕ := ⌊x⌋.toNat with hk0_def
  have hk0 : (k0 : ℤ) = ⌊x⌋ := Int.toNat_of_nonneg hfl0
  have hk0x : (k0 : ℚ) ≤ x := by
    have := Int.floor_le x
    rw [← hk0] at this
    exact_mod_cast this
  have hxk0 : x < (k0 : ℚ) + 1 := by
    have := Int.lt_floor_add_one x
    rw [← hk0] at this
    exact_mod_cast this
  have hk0N : k0 < N := by
    have : (k0 : ℚ) < N := lt_of_le_of_lt hk0x hxN
    exact_mod_cast this
  refine ⟨k0, ⟨hk0N, ?_, ?_⟩, ?_⟩
  · show frameStartPct N k0 ≤ q
    unfold frameStartPct
    calc (k0 : ℚ) * (100 / N) ≤ x * (100 / N) :=
      mul_le_mul_of_nonneg_right hk0x (le_of_lt hcpos)
    _ = q := hxq
  · show q < frameEndPct N k0
    unfold frameEndPct
    calc q = x * (100 / N) := hxq.symm
    _ < ((k0 : ℚ) + 1) * (100 / N) := mul_lt_mul_of_pos_right hxk0 hcpos
  · intro k' ⟨hk'N, hs, he⟩
    unfold frameStartPct at hs
    unfold frameEndPct at he
    have hk'le : (k' : ℚ) ≤ x := by
      have h2 : (k' : ℚ) * (100 / N) ≤ x * (100 / N) := by rw [hxq]; exact hs
      exact le_of_mul_le_mul_right h2 hcpos
    have hk'gt : x < (k' : ℚ) + 1 := by
      have h2 : x * (100 / N) < ((k' : ℚ) + 1) * (100 / N) := by rw [hxq]; exact he
      exact lt_of_mul_lt_mul_right h2 (le_of_lt hcpos)
    have : ⌊x⌋ = (k' : ℤ) := by
      rw [Int.floor_eq_iff]
      constructor
      · exact_mod_cast hk'le
      · exact_mod_cast hk'gt
    omega

theorem claim_C6_witness : ∃! k : ℕ, k < 3 ∧ visibleAt 3 k 50 :=
  claim_C6 3 (by norm_num) 50 (by norm_num) (by norm_num)


/-- C10 (amended): for every path string whose maximal numeric runs contain
at most one `'.'`, no interior `'-'`, and at most one digit after the `'.'`,
`rebuild_path(d, parse_path_numbers(d))` has the same command skeleton as
`d` and parses back to exactly `parse_path_numbers(d)`; without the
run precondition (e.g. the adjacent-number run `2.5.5`) the rebuild
tokenizes differently from the parser and drops operands. -/
theorem claim_C10 :
    (∀ d : List Char, runsOKStrong d = true →
      get_path_commands (rebuild_path d (parse_path_numbers d)) =
        get_path_commands d ∧
      parse_path_numbers (rebuild_path d (parse_path_numbers d)) =
        parse_path_numbers d) ∧
    ((parse_path_numbers dAdj).length = 3 ∧
      (parse_path_numbers (rebuild_path dAdj
        (parse_path_numbers dAdj))).length = 2) := by
  constructor
  · intro d h
    have hok := runsOKStrong_runsOK h
    obtain ⟨hp, hc⟩ := rebuild_exact hok (parse_tenth h) (parse_le_scan hok)
    exact ⟨hc, hp⟩
  · constructor
    · with_unfolding_all rfl
    · with_unfolding_all rfl

theorem claim_C10_witness :
    get_path_commands (rebuild_path dOkPath
      (parse_path_numbers dOkPath)) = get_path_commands dOkPath ∧
    parse_path_numbers (rebuild_path dOkPath
      (parse_path_numbers dOkPath)) = parse_path_numbers dOkPath :=
  claim_C10.1 dOkPath (by with_unfolding_all rfl)

/-- C10 counterexample: `"M2.56"` satisfies the claim's stated precondition
(one run `2.56`, a single `'.'`, no interior `'-'`) yet the round trip
reformats `2.56` to `2.6`, so the rebuilt operands are not numerically
equal to `parse_path_numbers(d)`. -/
theorem claim_C10_counterexample :
    runsOK dM256 = true ∧
    rebuild_path dM256 (parse_path_numbers dM256) = dM26 ∧
    parse_path_numbers dM256 = [64/25] ∧
    parse_path_numbers dM26 = [13/5] ∧
    (64/25 : ℚ) ≠ 13/5 := by
  refine ⟨?_, ?_, ?_, ?_, by norm_num⟩
  · with_unfolding_all rfl
  · with_unfolding_all rfl
  · with_unfolding_all rfl
  · with_unfolding_all rfl

/-- C1 (amended): for structurally compatible `A, B` whose numeric runs are
unambiguous (at most one `'.'`, no interior `'-'`) and whose operands have
at most one decimal digit, `create_inbetween(A, B, 0)` reproduces `A`'s
skeleton and operands exactly, and `create_inbetween(A, B, 1)` reproduces
`B`'s — equality of parsed operands, not byte-identical strings. -/
theorem claim_C1 (A B : List Char) (hAB : compatible A B)
    (hA : runsOKStrong A = true) (hB : runsOKStrong B = true) :
    (get_path_commands (create_inbetween A B 0) = get_path_commands A ∧
      parse_path_numbers (create_inbetween A B 0) = parse_path_numbers A) ∧
    (get_path_commands (create_inbetween A B 1) = get_path_commands B ∧
      parse_path_numbers (create_inbetween A B 1) = parse_path_numbers B) := by
  obtain ⟨hc, hl⟩ := hAB
  have hokA : runsOK A = true := runsOKStrong_runsOK hA
  have h0 : create_inbetween A B 0 = rebuild_path A (parse_path_numbers A) := by
    unfold create_inbetween
    dsimp only
    rw [if_pos ⟨hc, hl⟩, interpolate_zero hl]
  have h1 : create_inbetween A B 1 = rebuild_path A (parse_path_numbers B) := by
    unfold create_inbetween
    dsimp only
    rw [if_pos ⟨hc, hl⟩, interpolate_one hl]
  constructor
  · rw [h0]
    obtain ⟨hp, hcm⟩ := rebuild_exact hokA (parse_tenth hA) (parse_le_scan hokA)
    exact ⟨hcm, hp⟩
  · rw [h1]
    obtain ⟨hp, hcm⟩ := rebuild_exact hokA (parse_tenth hB)
      (by rw [← hl]; exact parse_le_scan hokA)
    exact ⟨hcm.trans hc, hp⟩

theorem claim_C1_witness :
    (get_path_commands (create_inbetween dA1 dB1 0) =
        get_path_commands dA1 ∧
      parse_path_numbers (create_inbetween dA1 dB1 0) =
        parse_path_numbers dA1) ∧
    (get_path_commands (create_inbetween dA1 dB1 1) =
        get_path_commands dB1 ∧
      parse_path_numbers (create_inbetween dA1 dB1 1) =
        parse_path_numbers dB1) :=
  claim_C1 dA1 dB1 (by with_unfolding_all decide)
    (by with_unfolding_all rfl) (by with_unfolding_all rfl)

/-- C1 counterexample: `A = "M2.56"`, `B = "M1.5"` are structurally
compatible, but `create_inbetween(A, B, 0)` formats the operand `2.56` to
one decimal place, producing `"M2.6"` — its parsed operand `2.6` is not
numerically equal to `A`'s operand `2.56`, a difference beyond the
whole-number formatting the claim allows. -/
theorem claim_C1_counterexample :
    compatible dM256 dM15 ∧
    create_inbetween dM256 dM15 0 = dM26 ∧
    parse_path_numbers dM256 = [64/25] ∧
    parse_path_numbers dM26 = [13/5] ∧
    (13/5 : ℚ) ≠ 64/25 := by
  refine ⟨?_, ?_, ?_, ?_, by norm_num⟩
  · with_unfolding_all decide
  · with_unfolding_all rfl
  · with_unfolding_all rfl
  · with_unfolding_all rfl


lemma zipWith_get?_eq {f : ℚ → ℚ → ℚ} : ∀ (l1 l2 : List ℚ) (i : ℕ) (a b x : ℚ),
    l1.get? i = some a → l2.get? i = some b →
    (List.zipWith f l1 l2).get? i = some x → x = f a b := by
  intro l1
  induction l1 with
  | nil => intro l2 i a b x h1 _ _; simp at h1
  | cons y ys ih =>
    intro l2 i a b x h1 h2 hx
    cases l2 with
    | nil => simp at h2
    | cons z zs =>
      cases i with
      | zero =>
        simp only [List.get?] at h1 h2
        rw [List.zipWith_cons_cons] at hx
        simp only [List.get?] at hx
        injection h1 with h1
        injection h2 with h2
        injection hx with hx
        rw [← h1, ← h2, ← hx]
      | succ j =>
        simp only [List.get?] at h1 h2
        rw [List.zipWith_cons_cons] at hx
        simp only [List.get?] at hx
        exact ih zs j a b x h1 h2 hx

/-- C4 (amended): for compatible `A, B` and `t` strictly between 0 and 1,
every interpolated operand lies (inclusively) between the corresponding
operands of `A` and `B` before formatting; the formatted output value
(`fmtVal`, integer or one decimal place) can leave that interval, but by at
most 1/20 — the rounding error of one-decimal formatting. -/
theorem claim_C4 (A B : List Char) (t : ℚ) (hAB : compatible A B)
    (h0 : 0 < t) (h1 : t < 1) (i : ℕ) (a1 a2 x : ℚ)
    (ha1 : (parse_path_numbers A).get? i = some a1)
    (ha2 : (parse_path_numbers B).get? i = some a2)
    (hx : (interpolate_numbers (parse_path_numbers A)
      (parse_path_numbers B) t).get? i = some x) :
    (min a1 a2 ≤ x ∧ x ≤ max a1 a2) ∧
    (min a1 a2 - 1/20 ≤ fmtVal x ∧ fmtVal x ≤ max a1 a2 + 1/20) := by
  obtain ⟨_, hl⟩ := hAB
  unfold interpolate_numbers at hx
  rw [if_neg (by simp [hl])] at hx
  have hxval : x = a1 + (a2 - a1) * t := zipWith_get?_eq _ _ i a1 a2 x ha1 ha2 hx
  have hbetween := interp_between (a := a1) (b := a2) (t := t)
    (le_of_lt h0) (le_of_lt h1)
  rw [← hxval] at hbetween
  have hdist := fmtVal_dist x
  rw [abs_le] at hdist
  refine ⟨hbetween, ?_, ?_⟩
  · linarith [hbetween.1, hdist.1]
  · linarith [hbetween.2, hdist.2]

theorem claim_C4_witness :
    (min (1 : ℚ) 2 ≤ 3/2 ∧ (3/2 : ℚ) ≤ max 1 2) ∧
    (min (1 : ℚ) 2 - 1/20 ≤ fmtVal (3/2) ∧ fmtVal (3/2) ≤ max 1 2 + 1/20) :=
  claim_C4 dM1Z dM2Z (1/2) (by with_unfolding_all decide)
    (by norm_num) (by norm_num) 0 1 2 (3/2)
    (by with_unfolding_all rfl) (by with_unfolding_all rfl)
    (by with_unfolding_all rfl)

/-- C4 counterexample: `A = "M1.06"`, `B = "M1.08"` at `t = 1/2` give the
interpolated operand 1.07, which the one-decimal formatting rounds to 1.1 —
outside the interval [1.06, 1.08], so the claim of no overshoot including
after formatting fails. -/
theorem claim_C4_counterexample :
    compatible dM106 dM108 ∧
    create_inbetween dM106 dM108 (1/2) = dM11 ∧
    parse_path_numbers dM106 = [53/50] ∧
    parse_path_numbers dM108 = [27/25] ∧
    parse_path_numbers dM11 = [11/10] ∧
    ¬ (11/10 : ℚ) ≤ max (53/50 : ℚ) (27/25) := by
  refine ⟨?_, ?_, ?_, ?_, ?_, ?_⟩
  · with_unfolding_all decide
  · with_unfolding_all rfl
  · with_unfolding_all rfl
  · with_unfolding_all rfl
  · with_unfolding_all rfl
  · rw [show max (53/50 : ℚ) (27/25) = 27/25 from max_eq_right (by norm_num)]
    norm_num

/-- C5 (amended): for compatible paths with skeleton `[M, C, Z]` and nine
operands, whose runs are unambiguous and whose pairwise means are all
multiples of 1/10, interpolating at `t = 1/2` yields a path whose operands
are exactly the arithmetic means `(A[i] + B[i]) / 2`; without the
tenth-multiple condition the mean is further rounded to one decimal. -/
theorem claim_C5 (A B : List Char)
    (hskel : get_path_commands A = ['M', 'C', 'Z'])
    (hlen9 : (parse_path_numbers A).length = 9)
    (hAB : compatible A B) (hA : runsOK A = true)
    (hmean : ∀ v ∈ (parse_path_numbers A).zipWith
      (fun a b => (a + b) / 2) (parse_path_numbers B), Tenth v) :
    parse_path_numbers (create_inbetween A B (1/2)) =
      (parse_path_numbers A).zipWith (fun a b => (a + b) / 2)
        (parse_path_numbers B) ∧
    get_path_commands (create_inbetween A B (1/2)) = ['M', 'C', 'Z'] := by
  obtain ⟨hc, hl⟩ := hAB
  have hfun : (fun a b : ℚ => a + (b - a) * (1/2)) =
      fun a b : ℚ => (a + b) / 2 := by
    funext a b
    ring
  have hmid : interpolate_numbers (parse_path_numbers A)
      (parse_path_numbers B) (1/2) =
      (parse_path_numbers A).zipWith (fun a b => (a + b) / 2)
        (parse_path_numbers B) := by
    unfold interpolate_numbers
    rw [if_neg (by simp [hl]), hfun]
  have hce : create_inbetween A B (1/2) =
      rebuild_path A ((parse_path_numbers A).zipWith
        (fun a b => (a + b) / 2) (parse_path_numbers B)) := by
    unfold create_inbetween
    dsimp only
    rw [if_pos ⟨hc, hl⟩, hmid]
  rw [hce]
  obtain ⟨hp, hcm⟩ := rebuild_exact hA hmean
    (by rw [List.length_zipWith, ← hl, min_self]; exact parse_le_scan hA)
  exact ⟨hp, hcm.trans hskel⟩

theorem claim_C5_witness :
    parse_path_numbers (create_inbetween dNineA
        dNineB (1/2)) =
      (parse_path_numbers dNineA).zipWith
        (fun a b => (a + b) / 2)
        (parse_path_numbers dNineB) ∧
    get_path_commands (create_inbetween dNineA
        dNineB (1/2)) = ['M', 'C', 'Z'] :=
  claim_C5 dNineA dNineB
    (by with_unfolding_all rfl) (by with_unfolding_all rfl)
    (by with_unfolding_all decide) (by with_unfolding_all rfl)
    (by with_unfolding_all decide)

/-- C5 counterexample: two compatible `[M, C, Z]` paths with nine operands
whose first operands are 1.1 and 1.16; at `t = 1/2` the mean 1.13 is
formatted to one decimal place, so the output's first operand is 1.1, not
the arithmetic mean. -/
theorem claim_C5_counterexample :
    get_path_commands dNineX = ['M', 'C', 'Z'] ∧
    (parse_path_numbers dNineX).length = 9 ∧
    compatible dNineX dNineY ∧
    (parse_path_numbers (create_inbetween dNineX
      dNineY (1/2))).get? 0 = some (11/10) ∧
    (parse_path_numbers dNineX).get? 0 = some (11/10) ∧
    (parse_path_numbers dNineY).get? 0 = some (29/25) ∧
    ((11/10 : ℚ) + 29/25) / 2 = 113/100 ∧
    (11/10 : ℚ) ≠ 113/100 := by
  refine ⟨?_, ?_, ?_, ?_, ?_, ?_, by norm_num, by norm_num⟩
  · with_unfolding_all rfl
  · with_unfolding_all rfl
  · with_unfolding_all decide
  · with_unfolding_all rfl
  · with_unfolding_all rfl
  · with_unfolding_all rfl

/-- C8: path parsing is total — `parse_path_numbers` and
`get_path_commands` are total functions (no failure case in their types);
any character that cannot start a number contributes nothing to the operand
list, and malformed numeric runs (a bare `"-."`, the ambiguous `"2.5.5"`)
are silently tokenized or dropped rather than reported. -/
theorem claim_C8 :
    (∀ (c : Char) (d : List Char), isNumStart c = false →
      parse_path_numbers (c :: d) = parse_path_numbers d) ∧
    parse_path_numbers dMal = [5/2, 1/2] ∧
    get_path_commands dMal = ['M', 'L', 'Z'] := by
  refine ⟨?_, ?_, ?_⟩
  · intro c d h
    exact parse_cons_none (matchNum_notStart h)
  · with_unfolding_all rfl
  · with_unfolding_all rfl

theorem claim_C8_witness :
    parse_path_numbers ('x' :: dSeven) = parse_path_numbers dSeven :=
  claim_C8.1 ('x') dSeven (by with_unfolding_all rfl)

end SkullAnim
